import Mathlib

/-!
Shallow embedding of the `const-combinations` crate's index generators and
iterator adapters, together with proofs about their behaviour.

The embedding follows the source files:
* `src/combinations.rs` (`LazyCombinationGenerator`, `State::get_and_step`,
  `Combinations::next`, `SliceCombinations::next`),
* `src/permutations.rs` (`LazyPermutationGenerator`, the composite `State`,
  `Permutations::next`),
* `src/slice_combinations.rs`, `src/slice_permutations.rs`.

Rust's `[usize; K]` arrays become `List Nat` (the length plays the role of the
const parameter `K`); array indexing used by the adapters becomes
`Option`-returning lookup so that out-of-bounds accesses are observable.
-/

/-- State of `LazyCombinationGenerator<K>`: the `indices` array (length `K`)
and the `done` flag. -/
structure CombGen where
  indices : List Nat
  done : Bool
  deriving Repr, DecidableEq

/-- `LazyCombinationGenerator::new`: indices `[0, 1, …, K-1]`, not done. -/
def mkCombGen (k : Nat) : CombGen :=
  { indices := List.range k, done := false }

/-- `LazyCombinationGenerator::max_index`: the last (largest) held index,
`none` iff `K = 0`. -/
def CombGen.maxIndex (g : CombGen) : Option Nat :=
  g.indices.getLast?

/-- `LazyCombinationGenerator::is_done`: `self.done || self.max_index() >= Some(item_count)`.
In Rust's `Option` order `None >= Some _` is false, so `K = 0` contributes `false`. -/
def CombGen.isDone (g : CombGen) (itemCount : Nat) : Bool :=
  g.done ||
    match g.maxIndex with
    | some m => decide (itemCount ≤ m)
    | none => false

/-- The loop body of `LazyCombinationGenerator::step` for `K > 0`: starting at
position `i`, reset each index of a consecutive run `indices[i]+1 == indices[i+1]`
to its position, then increment the first index not followed by its successor. -/
def combStepAux : Nat → List Nat → List Nat
  | _, [] => []
  | _, [a] => [a + 1]
  | i, a :: b :: rest =>
    if a + 1 = b then i :: combStepAux (i + 1) (b :: rest) else (a + 1) :: b :: rest

/-- `LazyCombinationGenerator::step`: for `K = 0` set `done`; otherwise run the
reset-and-increment scan. -/
def CombGen.step (g : CombGen) : CombGen :=
  if g.indices.isEmpty then { g with done := true }
  else { g with indices := combStepAux 0 g.indices }

/-- Iterated `step`. -/
def combStepN (t : Nat) (g : CombGen) : CombGen :=
  match t with
  | 0 => g
  | t + 1 => (combStepN t g).step

/-- One pull of `SliceCombinations::next` / the combination `State::get_and_step`
against a buffer `items`: `None` when `is_done(items.len())`, otherwise the
current indices resolved through `items` (out-of-bounds lookups surface as
`none` slots) followed by a `step`. -/
def sliceCombNext (items : List α) (g : CombGen) : Option (List (Option α)) × CombGen :=
  if g.isDone items.length then (none, g)
  else (some (g.indices.map fun i => items.get? i), g.step)

/-- Repeatedly pull `sliceCombNext`, collecting outputs until exhaustion (or fuel
runs out). -/
def sliceCombRun (items : List α) : Nat → CombGen → List (List (Option α))
  | 0, _ => []
  | fuel + 1, g =>
    match sliceCombNext items g with
    | (none, _) => []
    | (some r, g2) => r :: sliceCombRun items fuel g2

/-- The index tuples emitted by the combination generator over a domain of
`n` items: the pure index-level run. -/
def combGenRun (n : Nat) : Nat → CombGen → List (List Nat)
  | 0, _ => []
  | fuel + 1, g => if g.isDone n then [] else g.indices :: combGenRun n fuel g.step

/-- The complete emitted index sequence for domain size `n` and width `k`
(fuel `choose n k + 1` is shown sufficient below). -/
def combIdxRun (n k : Nat) : List (List Nat) :=
  combGenRun n (n.choose k + 1) (mkCombGen k)

/-- The combinatorial-number-system value of an index tuple, position-weighted:
`Σ_i choose (c i) (i+1)` starting at position `start`. -/
def cnsRankAux : Nat → List Nat → Nat
  | _, [] => 0
  | i, a :: rest => a.choose (i + 1) + cnsRankAux (i + 1) rest

/-- The combinatorial-number-system value of a combination's index tuple. -/
def cnsRank (c : List Nat) : Nat := cnsRankAux 0 c

/-- Boolean strict lexicographic order on index tuples (shorter-prefix first). -/
def lexLtB : List Nat → List Nat → Bool
  | [], [] => false
  | [], _ :: _ => true
  | _ :: _, [] => false
  | a :: as, b :: bs => if a < b then true else if a = b then lexLtB as bs else false

/-- State of `LazyPermutationGenerator<N>`: the `indices` permutation, Heap's
`counters`, and the `done` flag. -/
structure PermGen where
  indices : List Nat
  counters : List Nat
  done : Bool
  deriving Repr, DecidableEq

/-- `LazyPermutationGenerator::new`: identity indices, zero counters. -/
def mkPermGen (n : Nat) : PermGen :=
  { indices := List.range n, counters := List.replicate n 0, done := false }

/-- `LazyPermutationGenerator::is_done`. -/
def PermGen.isDone (g : PermGen) : Bool := g.done

/-- The scan loop of `LazyPermutationGenerator::step`: starting at position `i`,
while `i < N` and `counters[i] >= i`, zero `counters[i]` and move up; returns
the updated counters and the final `i`.  `fuel` bounds the iteration count
(`N` always suffices). -/
def permScan : List Nat → Nat → Nat → List Nat × Nat
  | cs, i, 0 => (cs, i)
  | cs, i, fuel + 1 =>
    if i < cs.length ∧ i ≤ cs.getD i 0 then permScan (cs.set i 0) (i + 1) fuel
    else (cs, i)

/-- Swap the entries of `l` at positions `i` and `j` (Rust `slice::swap`). -/
def listSwap (l : List Nat) (i j : Nat) : List Nat :=
  (l.set i (l.getD j 0)).set j (l.getD i 0)

/-- `LazyPermutationGenerator::step`: Heap's iterative rule.  Scan for the
smallest `i ≥ 1` with `counters[i] < i`, zeroing the counters passed over; if
`i` reached `N` mark done, otherwise swap positions `(i, 0)` (`i` even) or
`(i, counters[i])` (`i` odd) and increment `counters[i]`. -/
def PermGen.step (g : PermGen) : PermGen :=
  let n := g.counters.length
  let p := permScan g.counters 1 n
  if p.2 < n then
    let j := if p.2 % 2 = 0 then 0 else p.1.getD p.2 0
    { indices := listSwap g.indices p.2 j
      counters := p.1.set p.2 (p.1.getD p.2 0 + 1)
      done := g.done }
  else { indices := g.indices, counters := p.1, done := true }

/-- Iterated permutation-generator `step`. -/
def permStepN (t : Nat) (g : PermGen) : PermGen :=
  match t with
  | 0 => g
  | t + 1 => (permStepN t g).step

/-- The permutations (index arrays) visited by `LazyPermutationGenerator`
until `done`, with explicit fuel. -/
def permGenRun : Nat → PermGen → List (List Nat)
  | 0, _ => []
  | fuel + 1, g => if g.isDone then [] else g.indices :: permGenRun fuel g.step

/-- State of the composite permutation `State<K>` (`permutations.rs` /
`slice_permutations.rs`): an outer combination generator and an inner
permutation generator. -/
structure PermState where
  comb : CombGen
  perm : PermGen
  deriving Repr, DecidableEq

/-- Fresh composite state for width `k`. -/
def mkPermState (k : Nat) : PermState :=
  { comb := mkCombGen k, perm := mkPermGen k }

/-- One pull of `SlicePermutations::next` / the composite `State::get_and_step`:
when the outer combination generator is not done, emit
`items[comb_indices[perm_indices[i]]]` for each `i`, step the inner generator,
and on its exhaustion reset it and step the outer generator. -/
def slicePermNext (items : List α) (s : PermState) : Option (List (Option α)) × PermState :=
  if s.comb.isDone items.length then (none, s)
  else
    let res := s.perm.indices.map fun p => (s.comb.indices.get? p).bind fun ci => items.get? ci
    let pg := s.perm.step
    if pg.isDone then (some res, { comb := s.comb.step, perm := mkPermGen s.perm.indices.length })
    else (some res, { comb := s.comb, perm := pg })

/-- The composite transition on states only. -/
def permStTrans (n : Nat) (s : PermState) : PermState :=
  if s.comb.isDone n then s
  else
    let pg := s.perm.step
    if pg.isDone then { comb := s.comb.step, perm := mkPermGen s.perm.indices.length }
    else { comb := s.comb, perm := pg }

/-- The composite run at the index level over a domain of size `n`: each pull
emits `comb_indices[perm_indices[i]]` for `i < K`. -/
def permCompRun (n : Nat) : Nat → PermState → List (List Nat)
  | 0, _ => []
  | fuel + 1, s =>
    if s.comb.isDone n then []
    else
      (s.perm.indices.map fun p => s.comb.indices.getD p 0) ::
        permCompRun n fuel (permStTrans n s)

/-- Value-level composite run (`SlicePermutations` pulled to exhaustion). -/
def slicePermRun (items : List α) : Nat → PermState → List (List (Option α))
  | 0, _ => []
  | fuel + 1, s =>
    match slicePermNext items s with
    | (none, _) => []
    | (some r, s2) => r :: slicePermRun items fuel s2

/-- State of the sequence-backed `Combinations<I, K>` adapter over a plain list
source: the not-yet-consumed part of the source, the buffered `items`, and the
index generator. -/
structure SeqCombIter (α : Type) where
  src : List α
  items : List α
  g : CombGen
  deriving Repr

/-- `Combinations::new` over a list source. -/
def mkSeqCombIter (src : List α) (k : Nat) : SeqCombIter α :=
  { src := src, items := [], g := mkCombGen k }

/-- The buffer-fill phase of `Combinations::next`: if `K > 0`, pull
`max_index()+1 - items.len()` further elements from the source into the buffer
(stopping early when the source ends). -/
def fillComb (s : SeqCombIter α) : SeqCombIter α :=
  if s.g.indices.isEmpty then s
  else
    let need := (match s.g.maxIndex with | some m => m + 1 | none => 0)
    let missing := need - s.items.length
    { src := s.src.drop missing, items := s.items ++ s.src.take missing, g := s.g }

/-- `Combinations::next`: fill the buffer, then run the shared
`State::get_and_step` against it. -/
def seqCombNext (s : SeqCombIter α) : Option (List (Option α)) × SeqCombIter α :=
  let s1 := fillComb s
  match sliceCombNext s1.items s1.g with
  | (none, _) => (none, s1)
  | (some r, g2) => (some r, { s1 with g := g2 })

/-- Pull `seqCombNext` repeatedly. -/
def seqCombRun : Nat → SeqCombIter α → List (List (Option α))
  | 0, _ => []
  | fuel + 1, s =>
    match seqCombNext s with
    | (none, _) => []
    | (some r, s2) => r :: seqCombRun fuel s2

/-- State of the sequence-backed `Permutations<I, K>` adapter over a list
source. -/
structure SeqPermIter (α : Type) where
  src : List α
  items : List α
  st : PermState
  deriving Repr

/-- `Permutations::new` over a list source. -/
def mkSeqPermIter (src : List α) (k : Nat) : SeqPermIter α :=
  { src := src, items := [], st := mkPermState k }

/-- The buffer-fill phase of `Permutations::next`, driven by the outer
combination generator's `max_index`. -/
def fillPerm (s : SeqPermIter α) : SeqPermIter α :=
  if s.st.comb.indices.isEmpty then s
  else
    let need := (match s.st.comb.maxIndex with | some m => m + 1 | none => 0)
    let missing := need - s.items.length
    { src := s.src.drop missing, items := s.items ++ s.src.take missing, st := s.st }

/-- `Permutations::next`: fill the buffer, then run the composite
`State::get_and_step`. -/
def seqPermNext (s : SeqPermIter α) : Option (List (Option α)) × SeqPermIter α :=
  let s1 := fillPerm s
  match slicePermNext s1.items s1.st with
  | (none, _) => (none, s1)
  | (some r, st2) => (some r, { s1 with st := st2 })

/-- Pull `seqPermNext` repeatedly. -/
def seqPermRun : Nat → SeqPermIter α → List (List (Option α))
  | 0, _ => []
  | fuel + 1, s =>
    match seqPermNext s with
    | (none, _) => []
    | (some r, s2) => r :: seqPermRun fuel s2

/-- State of the resumable sequence-backed adapter used by the resumability
scenario: a fixed underlying element list, the number of elements consumed so
far (`pos`), the buffer, and the generator.  A pull is parameterised by how
many elements the source currently has available. -/
structure ResumeCombIter where
  pos : Nat
  items : List Nat
  g : CombGen
  deriving Repr, DecidableEq

/-- Fresh resumable adapter state. -/
def mkResumeCombIter (k : Nat) : ResumeCombIter :=
  { pos := 0, items := [], g := mkCombGen k }

/-- The buffer-fill phase of `Combinations::next` against a resumable source
(`resume_after_none`'s `ResumeIter`): the source yields `full[pos]` while
`pos < avail` and signals `None` otherwise; `take missing` stops at the first
`None`. -/
def fillResume (full : List Nat) (avail : Nat) (s : ResumeCombIter) : ResumeCombIter :=
  if s.g.indices.isEmpty then s
  else
    let need := (match s.g.maxIndex with | some m => m + 1 | none => 0)
    let missing := need - s.items.length
    let np := min missing (avail - s.pos)
    { pos := s.pos + np, items := s.items ++ (full.drop s.pos).take np, g := s.g }

/-- `Combinations::next` against the resumable source: fill, then pull. -/
def resumeCombNext (full : List Nat) (avail : Nat) (s : ResumeCombIter) :
    Option (List (Option Nat)) × ResumeCombIter :=
  let s1 := fillResume full avail s
  match sliceCombNext s1.items s1.g with
  | (none, _) => (none, s1)
  | (some r, g2) => (some r, { s1 with g := g2 })

/-- Run the resumable adapter over a schedule of per-pull availability counts,
recording each pull's outcome. -/
def resumeRun (full : List Nat) : List Nat → ResumeCombIter → List (Option (List (Option Nat)))
  | [], _ => []
  | a :: rest, s =>
    match resumeCombNext full a s with
    | (o, s2) => o :: resumeRun full rest s2

/-- Buffer length needed before the `s`-th emission of the `K = 3` resumability
scenario over the source `[1,2,3,4]`. -/
def c5need (s : Nat) : Nat := if s = 0 then 3 else if s ≤ 3 then 4 else 5

/-- The `s`-th value tuple emitted in the resumability scenario. -/
def c5tuple (s : Nat) : List Nat :=
  [[1, 2, 3], [1, 2, 4], [1, 3, 4], [2, 3, 4]].getD s []

/-- The expected outcome sequence of the resumability scenario: a pull with `a`
items available emits the next tuple iff `a` covers the tuple's need. -/
def c5expected : List Nat → Nat → List (Option (List Nat))
  | [], _ => []
  | a :: rest, s =>
    if c5need s ≤ a then some (c5tuple s) :: c5expected rest (s + 1)
    else none :: c5expected rest s

/-- The net position-permutation effected by a complete Heap run over positions
`0..m` (identity at and above `m`): for odd `m` (and `m = 2`) the swap of `0`
and `m-1`; for even `m ≥ 4` an explicit `m`-cycle. -/
def eFun (m p : Nat) : Nat :=
  if m ≤ 1 then p
  else if m % 2 = 1 ∨ m = 2 then (if p = 0 then m - 1 else if p = m - 1 then 0 else p)
  else
    if p = 0 then m - 3
    else if p = 1 then m - 2
    else if 2 ≤ p ∧ p ≤ m - 3 then p - 1
    else if p = m - 2 then m - 1
    else if p = m - 1 then 0
    else p

/-- Rearrange `l` by a position map: entry `p` of the result is entry `f p` of
`l`. -/
def permuteBy (f : Nat → Nat) (l : List Nat) : List Nat :=
  (List.range l.length).map fun p => l.getD (f p) 0

/-- Apply the net effect of a complete Heap run over positions `0..m`. -/
def applyE (m : Nat) (l : List Nat) : List Nat := permuteBy (eFun m) l

/-- The base array of the next Heap block at top position `m`: finish the
current inner run (net effect `eFun m`) and do the level-`m` swap, whose
partner is `0` for even `m` and the block counter `j` for odd `m`. -/
def nextBase (m j : Nat) (A : List Nat) : List Nat :=
  listSwap (applyE m A) m (if m % 2 = 0 then 0 else j)

/-- Heap block recursion: `heapGo m r j A` lists the arrays visited by the
remaining `r` inner runs of size `m` (block counter starting at `j`) of a
size-`m+1` Heap run from base array `A`; `heapGo 0 _ _ A = [A]`. -/
def heapGo : Nat → Nat → Nat → List Nat → List (List Nat)
  | 0, _, _, A => [A]
  | _ + 1, 0, _, _ => []
  | m + 1, r + 1, j, A => heapGo m m 0 A ++ heapGo (m + 1) r (j + 1) (nextBase m j A)

/-- The list of the `m !` arrays visited by a complete Heap run permuting
positions `0..m` of `A`. -/
def heapRun (m : Nat) (A : List Nat) : List (List Nat) := heapGo m m 0 A

/-- The position-swap map exchanging `i` and `j`. -/
def swapFun (i j p : Nat) : Nat := if p = i then j else if p = j then i else p

/-- The predicate located by the step rule's scan: position `i ≥ 1` is past the
end of `counters` or holds a counter smaller than `i`. -/
def heapLeastP (g : PermGen) (i : Nat) : Prop :=
  1 ≤ i ∧ (g.counters.length ≤ i ∨ g.counters.getD i 0 < i)

instance (g : PermGen) : DecidablePred (heapLeastP g) := fun _ => by
  unfold heapLeastP; infer_instance

/-- Modelled from the spec: the smallest `i ≥ 1` with `counters[i] < i`
(positions past the end of `counters` count as stopping points). -/
def heapLeast (g : PermGen) : Nat :=
  Nat.find (show ∃ i, heapLeastP g i from
    ⟨max 1 g.counters.length, le_max_left 1 _, Or.inl (le_max_right 1 _)⟩)

/-- Modelled from the spec's description of the step rule: find the smallest
`i ≥ 1` with `counters[i] < i`, reset the counters of the smaller positions
passed over to `0`, then if `i` reaches `N` mark done, else swap positions
`(0,i)` when `i` is even and `(counters[i],i)` when `i` is odd, and increment
`counters[i]`. -/
def heapRuleStep (g : PermGen) : PermGen :=
  let n := g.counters.length
  let i := heapLeast g
  let cs := (List.range n).map fun j => if 1 ≤ j ∧ j < i then 0 else g.counters.getD j 0
  if i < n then
    { indices := listSwap g.indices i (if i % 2 = 0 then 0 else cs.getD i 0)
      counters := cs.set i (cs.getD i 0 + 1)
      done := g.done }
  else { indices := g.indices, counters := cs, done := true }

/-! ### Basic lemmas about the combination generator -/

theorem combStepAux_length : ∀ (i : Nat) (c : List Nat),
    (combStepAux i c).length = c.length
  | _, [] => rfl
  | _, [_] => rfl
  | i, a :: b :: rest => by
    simp only [combStepAux]
    split
    · simpa using combStepAux_length (i + 1) (b :: rest)
    · rfl

theorem combStepAux_ne_nil : ∀ (i : Nat) (c : List Nat), c ≠ [] → combStepAux i c ≠ []
  | _, [], h => absurd rfl h
  | _, [_], _ => by simp [combStepAux]
  | i, a :: b :: rest, _ => by
    simp only [combStepAux]
    split <;> simp

theorem combStepAux_head : ∀ (i : Nat) (c : List Nat), c ≠ [] →
    (combStepAux i c).head? = some i ∨ (combStepAux i c).head? = some (c.headD 0 + 1)
  | _, [], h => absurd rfl h
  | _, [_], _ => Or.inr rfl
  | i, a :: b :: rest, _ => by
    simp only [combStepAux]
    split
    · exact Or.inl rfl
    · exact Or.inr rfl

theorem combStepAux_chain : ∀ (i : Nat) (c : List Nat),
    List.Chain' (· < ·) c → i ≤ c.headD 0 →
    List.Chain' (· < ·) (combStepAux i c)
  | _, [], _, _ => List.chain'_nil
  | _, [_], _, _ => List.chain'_singleton _
  | i, a :: b :: rest, hc, hi => by
    have hab : a < b := (List.chain'_cons.mp hc).1
    have htl : List.Chain' (· < ·) (b :: rest) := (List.chain'_cons.mp hc).2
    have hia : i ≤ a := by simpa using hi
    simp only [combStepAux]
    split
    case isTrue heq =>
      have ih := combStepAux_chain (i + 1) (b :: rest) htl
        (by simp only [List.headD_cons]; omega)
      refine List.Chain'.cons' ih ?_
      intro y hy
      rcases combStepAux_head (i + 1) (b :: rest) (by simp) with h | h
      · rw [h] at hy
        have hyv : i + 1 = y := by simpa using hy
        omega
      · rw [h] at hy
        have hyv : b + 1 = y := by simpa using hy
        omega
    case isFalse hne =>
      exact List.chain'_cons.mpr ⟨by omega, htl⟩

theorem cnsRankAux_step : ∀ (i : Nat) (c : List Nat), c ≠ [] →
    cnsRankAux i (combStepAux i c) = cnsRankAux i c + (c.headD 0).choose i
  | _, [], h => absurd rfl h
  | i, [a], _ => by
    have hp : (a + 1).choose (i + 1) = a.choose i + a.choose (i + 1) :=
      Nat.choose_succ_succ a i
    simp only [combStepAux, cnsRankAux, List.headD_cons]
    omega
  | i, a :: b :: rest, _ => by
    simp only [combStepAux]
    split
    case isTrue heq =>
      have ih := cnsRankAux_step (i + 1) (b :: rest) (by simp)
      have hp : (a + 1).choose (i + 1) = a.choose i + a.choose (i + 1) :=
        Nat.choose_succ_succ a i
      have h0 : Nat.choose i (i + 1) = 0 := Nat.choose_eq_zero_of_lt (Nat.lt_succ_self i)
      simp only [cnsRankAux, List.headD_cons] at ih ⊢
      rw [ih, ← heq]
      omega
    case isFalse hne =>
      have hp : (a + 1).choose (i + 1) = a.choose i + a.choose (i + 1) :=
        Nat.choose_succ_succ a i
      simp only [cnsRankAux, List.headD_cons]
      omega

theorem cnsRankAux_append (m : Nat) : ∀ (l : List Nat) (i : Nat),
    cnsRankAux i (l ++ [m]) = cnsRankAux i l + m.choose (i + l.length + 1)
  | [], i => by simp [cnsRankAux]
  | a :: l, i => by
    have ih := cnsRankAux_append m l (i + 1)
    simp only [List.cons_append, cnsRankAux, List.length_cons, List.append_eq]
    rw [ih]
    have harg : i + 1 + l.length + 1 = i + (l.length + 1) + 1 := by omega
    rw [harg]
    omega

theorem cnsRankAux_range' : ∀ (k i : Nat), cnsRankAux i (List.range' i k) = 0
  | 0, _ => rfl
  | k + 1, i => by
    rw [List.range'_succ]
    simp only [cnsRankAux, cnsRankAux_range' k (i + 1),
      Nat.choose_eq_zero_of_lt (Nat.lt_succ_self i)]

theorem cnsRank_range (k : Nat) : cnsRank (List.range k) = 0 := by
  rw [cnsRank, List.range_eq_range']
  exact cnsRankAux_range' k 0

/-- Main rank bound: an ascending tuple with entries below `n` has rank below
`choose n (length)`. -/
theorem cnsRank_lt_choose : ∀ (c : List Nat), List.Pairwise (· < ·) c →
    ∀ n, (∀ x ∈ c, x < n) → cnsRank c < n.choose c.length := by
  intro c
  induction c using List.reverseRecOn with
  | nil => intro _ n _; simp [cnsRank, cnsRankAux]
  | append_singleton l m ih =>
    intro hp n hb
    have hpl : List.Pairwise (· < ·) l := (List.pairwise_append.mp hp).1
    have hlm : ∀ x ∈ l, x < m := by
      intro x hx
      exact (List.pairwise_append.mp hp).2.2 x hx m (by simp)
    have hmn : m < n := hb m (by simp)
    have h1 : cnsRank l < m.choose l.length := ih hpl m hlm
    have h2 : cnsRank (l ++ [m]) = cnsRank l + m.choose (l.length + 1) := by
      simpa using cnsRankAux_append m l 0
    have hps : (m + 1).choose (l.length + 1) = m.choose l.length + m.choose (l.length + 1) :=
      Nat.choose_succ_succ m l.length
    have h3 : cnsRank (l ++ [m]) < (m + 1).choose (l.length + 1) := by omega
    have h4 : (m + 1).choose (l.length + 1) ≤ n.choose (l.length + 1) :=
      Nat.choose_le_choose _ hmn
    have h5 : (l ++ [m]).length = l.length + 1 := by simp
    rw [h5]
    omega

theorem choose_le_cnsRank (l : List Nat) (m : Nat) :
    m.choose (l.length + 1) ≤ cnsRank (l ++ [m]) := by
  have h2 : cnsRank (l ++ [m]) = cnsRank l + m.choose (l.length + 1) := by
    simpa using cnsRankAux_append m l 0
  omega

/-- The CNS rank is injective on ascending tuples of a fixed length. -/
theorem cnsRank_injective : ∀ (c d : List Nat), List.Pairwise (· < ·) c →
    List.Pairwise (· < ·) d → c.length = d.length → cnsRank c = cnsRank d → c = d := by
  intro c
  induction c using List.reverseRecOn with
  | nil =>
    intro d _ _ hl _
    have : d.length = 0 := by simpa using hl.symm
    exact (List.length_eq_zero.mp this).symm
  | append_singleton l m ih =>
    intro d hc hd hl hr
    rcases d.eq_nil_or_concat with rfl | ⟨l2, m2, rfl⟩
    · simp at hl
    rw [List.concat_eq_append] at hd hl hr ⊢
    have hpl : List.Pairwise (· < ·) l := (List.pairwise_append.mp hc).1
    have hlm : ∀ x ∈ l, x < m := fun x hx =>
      (List.pairwise_append.mp hc).2.2 x hx m (by simp)
    have hpl2 : List.Pairwise (· < ·) l2 := (List.pairwise_append.mp hd).1
    have hlm2 : ∀ x ∈ l2, x < m2 := fun x hx =>
      (List.pairwise_append.mp hd).2.2 x hx m2 (by simp)
    have hlen : l.length = l2.length := by simpa using hl
    have h2 : cnsRank (l ++ [m]) = cnsRank l + m.choose (l.length + 1) := by
      simpa using cnsRankAux_append m l 0
    have h2b : cnsRank (l2 ++ [m2]) = cnsRank l2 + m2.choose (l2.length + 1) := by
      simpa using cnsRankAux_append m2 l2 0
    have hup : cnsRank (l ++ [m]) < (m + 1).choose (l.length + 1) := by
      have h1 := cnsRank_lt_choose l hpl m hlm
      have hps : (m + 1).choose (l.length + 1) = m.choose l.length + m.choose (l.length + 1) :=
        Nat.choose_succ_succ m l.length
      omega
    have hup2 : cnsRank (l2 ++ [m2]) < (m2 + 1).choose (l2.length + 1) := by
      have h1 := cnsRank_lt_choose l2 hpl2 m2 hlm2
      have hps : (m2 + 1).choose (l2.length + 1) =
          m2.choose l2.length + m2.choose (l2.length + 1) :=
        Nat.choose_succ_succ m2 l2.length
      omega
    have hmm : m = m2 := by
      by_contra hne
      have hlo := choose_le_cnsRank l m
      have hlo2 := choose_le_cnsRank l2 m2
      rw [hlen] at hup hlo
      rcases Nat.lt_or_ge m m2 with h | h
      · have hmono : (m + 1).choose (l2.length + 1) ≤ m2.choose (l2.length + 1) :=
          Nat.choose_le_choose _ h
        omega
      · have hlt : m2 < m := by omega
        have hmono : (m2 + 1).choose (l2.length + 1) ≤ m.choose (l2.length + 1) :=
          Nat.choose_le_choose _ hlt
        omega
    subst hmm
    have hrl : cnsRank l = cnsRank l2 := by
      rw [h2, h2b, hlen] at hr
      omega
    rw [ih l2 hpl hpl2 hlen hrl]

/-! ### Reachable combination-generator states -/

theorem combStep_indices_length (g : CombGen) : g.step.indices.length = g.indices.length := by
  unfold CombGen.step
  split
  · rfl
  · exact combStepAux_length 0 g.indices

theorem combStep_done (g : CombGen) (h : g.indices ≠ []) : g.step.done = g.done := by
  unfold CombGen.step
  split
  case isTrue hb => exact absurd (by simpa using hb) h
  case isFalse hb => rfl

theorem combStep_chain (g : CombGen) (h : List.Chain' (· < ·) g.indices) :
    List.Chain' (· < ·) g.step.indices := by
  unfold CombGen.step
  split
  · exact h
  · exact combStepAux_chain 0 g.indices h (Nat.zero_le _)

theorem combStep_rank (g : CombGen) (h : g.indices ≠ []) :
    cnsRank g.step.indices = cnsRank g.indices + 1 := by
  unfold CombGen.step
  split
  case isTrue hb => exact absurd (by simpa using hb) h
  case isFalse hb =>
    have hs := cnsRankAux_step 0 g.indices h
    simpa [cnsRank, Nat.choose_zero_right] using hs

theorem combStepN_step_comm : ∀ (t : Nat) (g : CombGen),
    combStepN t g.step = combStepN (t + 1) g
  | 0, _ => rfl
  | t + 1, g => by
    show (combStepN t g.step).step = _
    rw [combStepN_step_comm t g]
    rfl

theorem combStepN_len (k t : Nat) : (combStepN t (mkCombGen k)).indices.length = k := by
  induction t with
  | zero => simp [combStepN, mkCombGen]
  | succ t ih => rw [combStepN, combStep_indices_length]; exact ih

theorem combStepN_chain (k t : Nat) :
    List.Chain' (· < ·) (combStepN t (mkCombGen k)).indices := by
  induction t with
  | zero =>
    show List.Chain' (· < ·) (List.range k)
    exact List.chain'_iff_pairwise.mpr (List.pairwise_lt_range k)
  | succ t ih => exact combStep_chain _ ih

theorem combStepN_ne_nil (k t : Nat) (hk : k ≠ 0) :
    (combStepN t (mkCombGen k)).indices ≠ [] := by
  intro h
  have := combStepN_len k t
  rw [h] at this
  exact hk this.symm

theorem combStepN_done_false (k t : Nat) (hk : k ≠ 0) :
    (combStepN t (mkCombGen k)).done = false := by
  induction t with
  | zero => rfl
  | succ t ih =>
    rw [combStepN, combStep_done _ (combStepN_ne_nil k t hk)]
    exact ih

theorem combStepN_rank (k t : Nat) (hk : k ≠ 0) :
    cnsRank (combStepN t (mkCombGen k)).indices = t := by
  induction t with
  | zero => exact cnsRank_range k
  | succ t ih =>
    rw [combStepN, combStep_rank _ (combStepN_ne_nil k t hk), ih]

theorem combStepN_pairwise (k t : Nat) :
    List.Pairwise (· < ·) (combStepN t (mkCombGen k)).indices :=
  List.chain'_iff_pairwise.mp (combStepN_chain k t)

theorem isDone_false_iff (g : CombGen) (n : Nat) :
    g.isDone n = false ↔ g.done = false ∧ ∀ m, g.maxIndex = some m → m < n := by
  unfold CombGen.isDone
  rcases hmi : g.maxIndex with _ | m <;> cases hd : g.done <;> simp [hmi, hd]

theorem pairwise_mem_le_getLast : ∀ (c : List Nat), List.Pairwise (· < ·) c →
    ∀ m, c.getLast? = some m → ∀ x ∈ c, x ≤ m := by
  intro c hc m hm x hx
  rcases c.eq_nil_or_concat with rfl | ⟨l, b, rfl⟩
  · simp at hm
  rw [List.concat_eq_append] at hc hm hx
  have hb : b = m := by simpa [List.getLast?_concat] using hm
  subst hb
  rcases List.mem_append.mp hx with h | h
  · exact le_of_lt ((List.pairwise_append.mp hc).2.2 x h b (by simp))
  · simp at h
    omega

/-- A reachable state with `k ≠ 0` and rank below `choose n k` is not yet done
for domain size `n`. -/
theorem combStepN_isDone_false (n k t : Nat) (hk : k ≠ 0) (ht : t < n.choose k) :
    (combStepN t (mkCombGen k)).isDone n = false := by
  rw [isDone_false_iff]
  refine ⟨combStepN_done_false k t hk, ?_⟩
  intro m hm
  by_contra hge
  have hml : (combStepN t (mkCombGen k)).indices.getLast? = some m := hm
  have hge2 : n ≤ m := by omega
  -- if the last index reaches n, the rank is at least choose n k
  have hx : ∃ l, (combStepN t (mkCombGen k)).indices = l ++ [m] := by
    rcases (combStepN t (mkCombGen k)).indices.eq_nil_or_concat with he | ⟨l, b, he⟩
    · rw [he] at hml; simp at hml
    · rw [List.concat_eq_append] at he
      rw [he, List.getLast?_concat] at hml
      simp at hml
      exact ⟨l, by rw [he, hml]⟩
  rcases hx with ⟨l, hl⟩
  have hlow : m.choose (l.length + 1) ≤ cnsRank (l ++ [m]) := choose_le_cnsRank l m
  have hlen : l.length + 1 = k := by
    have := combStepN_len k t
    rw [hl] at this
    simpa using this
  have hrank : cnsRank (l ++ [m]) = t := by
    rw [← hl]
    exact combStepN_rank k t hk
  have hmono : n.choose k ≤ m.choose k := Nat.choose_le_choose _ hge2
  rw [hlen] at hlow
  omega

/-- At rank `choose n k` the generator is done for domain size `n`. -/
theorem combStepN_isDone_true (n k : Nat) (hk : k ≠ 0) :
    (combStepN (n.choose k) (mkCombGen k)).isDone n = true := by
  by_contra hne
  have hfalse : (combStepN (n.choose k) (mkCombGen k)).isDone n = false := by
    cases h : (combStepN (n.choose k) (mkCombGen k)).isDone n
    · rfl
    · exact absurd h hne
  rw [isDone_false_iff] at hfalse
  have hbound : ∀ x ∈ (combStepN (n.choose k) (mkCombGen k)).indices, x < n := by
    intro x hx
    rcases hml : (combStepN (n.choose k) (mkCombGen k)).indices.getLast? with _ | m
    · rw [List.getLast?_eq_none_iff] at hml
      rw [hml] at hx
      simp at hx
    · have hxm := pairwise_mem_le_getLast _ (combStepN_pairwise k _) m hml x hx
      have := hfalse.2 m hml
      omega
  have := cnsRank_lt_choose _ (combStepN_pairwise k (n.choose k)) n hbound
  rw [combStepN_rank k _ hk, combStepN_len k _] at this
  omega

/-- Run characterization: when the generator first reports done at step `cnt`,
any fuel of at least `cnt` yields exactly the first `cnt` index states. -/
theorem combGenRun_eq_map (n : Nat) : ∀ (cnt : Nat) (g : CombGen),
    (∀ t, t < cnt → (combStepN t g).isDone n = false) →
    (combStepN cnt g).isDone n = true →
    ∀ fuel, cnt ≤ fuel →
      combGenRun n fuel g = (List.range cnt).map fun t => (combStepN t g).indices := by
  intro cnt
  induction cnt with
  | zero =>
    intro g _ hdone fuel _
    cases fuel with
    | zero => rfl
    | succ fuel =>
      have hd : g.isDone n = true := hdone
      show (if g.isDone n = true then [] else g.indices :: combGenRun n fuel g.step) = _
      rw [if_pos hd]
      rfl
  | succ cnt ih =>
    intro g hlt hdone fuel hfuel
    rcases fuel with _ | fuel
    · omega
    have h0 : g.isDone n = false := hlt 0 (by omega)
    show (if g.isDone n = true then [] else g.indices :: combGenRun n fuel g.step) = _
    rw [h0]
    simp only [Bool.false_eq_true, if_false]
    have ih2 := ih g.step
      (fun t ht => by rw [combStepN_step_comm]; exact hlt (t + 1) (by omega))
      (by rw [combStepN_step_comm]; exact hdone) fuel (by omega)
    rw [ih2, List.range_succ_eq_map, List.map_cons, List.map_map]
    refine congrArg₂ List.cons rfl ?_
    apply List.map_congr_left
    intro t _
    show (combStepN t g.step).indices = _
    rw [combStepN_step_comm]
    rfl

/-- Index bound for states still in play: all indices are below the domain size. -/
theorem combStepN_bound (n k t : Nat) (hk : k ≠ 0) (ht : t < n.choose k) :
    ∀ x ∈ (combStepN t (mkCombGen k)).indices, x < n := by
  intro x hx
  have hfalse := combStepN_isDone_false n k t hk ht
  rw [isDone_false_iff] at hfalse
  rcases hml : (combStepN t (mkCombGen k)).indices.getLast? with _ | m
  · rw [List.getLast?_eq_none_iff] at hml
    rw [hml] at hx
    simp at hx
  · have hxm := pairwise_mem_le_getLast _ (combStepN_pairwise k _) m hml x hx
    have := hfalse.2 m hml
    omega

theorem sliceCombRun_eq_map (items : List α) : ∀ (fuel : Nat) (g : CombGen),
    sliceCombRun items fuel g =
      (combGenRun items.length fuel g).map fun c => c.map fun i => items.get? i
  | 0, _ => rfl
  | fuel + 1, g => by
    simp only [sliceCombRun, combGenRun, sliceCombNext]
    cases hb : g.isDone items.length
    · simp [hb, sliceCombRun_eq_map items fuel g.step]
    · simp [hb]

/-- Claim C1: for every domain size `N` and width `K ≤ N`, the combination
generator emits exactly `choose N K` index tuples, each strictly ascending with
entries below `N` and of length `K`, all distinct, covering every possible
`K`-subset of `0..N`, in ascending combinatorial-number-system order (the CNS
value of the emitted tuples strictly increases), independent of the fuel used
to drive it; and in particular over the domain `[1,2,3,4,5]` with `K = 3` the
emitted value tuples are exactly the ten listed tuples in that order, followed
by exhaustion. -/
theorem claim_C1 :
    (∀ n k : Nat, k ≤ n →
      (combIdxRun n k).length = n.choose k ∧
      (∀ c ∈ combIdxRun n k,
        List.Pairwise (· < ·) c ∧ c.length = k ∧ ∀ x ∈ c, x < n) ∧
      (combIdxRun n k).Nodup ∧
      (∀ c : List Nat, c.length = k → List.Pairwise (· < ·) c → (∀ x ∈ c, x < n) →
        c ∈ combIdxRun n k) ∧
      List.Pairwise (fun c d => cnsRank c < cnsRank d) (combIdxRun n k) ∧
      (∀ fuel, n.choose k ≤ fuel → combGenRun n fuel (mkCombGen k) = combIdxRun n k)) ∧
    (∀ fuel, 10 ≤ fuel →
      sliceCombRun [1, 2, 3, 4, 5] fuel (mkCombGen 3) =
        [[1, 2, 3], [1, 2, 4], [1, 3, 4], [2, 3, 4], [1, 2, 5], [1, 3, 5], [2, 3, 5],
          [1, 4, 5], [2, 4, 5], [3, 4, 5]].map fun c => c.map some) := by
  constructor
  · intro n k hkn
    by_cases hk : k = 0
    · subst hk
      have hidx : combIdxRun n 0 = [[]] := by
        rw [combIdxRun, Nat.choose_zero_right]
        rfl
      have hstable : ∀ fuel, n.choose 0 ≤ fuel →
          combGenRun n fuel (mkCombGen 0) = [[]] := by
        intro fuel hf
        rw [Nat.choose_zero_right] at hf
        rcases fuel with _ | f
        · omega
        · show (if (mkCombGen 0).isDone n = true then []
              else (mkCombGen 0).indices :: combGenRun n f (mkCombGen 0).step) = _
          rw [if_neg (by simp [mkCombGen, CombGen.isDone, CombGen.maxIndex])]
          have hrest : combGenRun n f (mkCombGen 0).step = [] := by
            cases f <;> rfl
          rw [hrest]
          rfl
      refine ⟨by simp [hidx], ?_, by simp [hidx], ?_, by simp [hidx], ?_⟩
      · intro c hc
        rw [hidx] at hc
        simp at hc
        subst hc
        exact ⟨List.Pairwise.nil, rfl, by simp⟩
      · intro c hc _ _
        rw [List.length_eq_zero] at hc
        subst hc
        rw [hidx]
        simp
      · intro fuel hf
        rw [hstable fuel hf, hidx]
    · have hmap := combGenRun_eq_map n (n.choose k) (mkCombGen k)
        (fun t ht => combStepN_isDone_false n k t hk ht)
        (combStepN_isDone_true n k hk)
      have hidx : combIdxRun n k =
          (List.range (n.choose k)).map fun t => (combStepN t (mkCombGen k)).indices :=
        hmap (n.choose k + 1) (by omega)
      have hmem : ∀ c ∈ combIdxRun n k,
          List.Pairwise (· < ·) c ∧ c.length = k ∧ ∀ x ∈ c, x < n := by
        intro c hc
        rw [hidx] at hc
        rcases List.mem_map.mp hc with ⟨t, htr, rfl⟩
        rw [List.mem_range] at htr
        exact ⟨combStepN_pairwise k t, combStepN_len k t, combStepN_bound n k t hk htr⟩
      have hpair : List.Pairwise (fun c d => cnsRank c < cnsRank d) (combIdxRun n k) := by
        rw [hidx]
        rw [List.pairwise_map]
        refine (List.pairwise_lt_range (n.choose k)).imp_of_mem ?_
        intro a b ha hb hab
        rw [List.mem_range] at ha hb
        rw [combStepN_rank k a hk, combStepN_rank k b hk]
        exact hab
      refine ⟨by simp [hidx], hmem, ?_, ?_, hpair, ?_⟩
      · exact hpair.imp fun {a b} h => fun heq => by rw [heq] at h; exact lt_irrefl _ h
      · intro c hlen hp hb
        have hrank : cnsRank c < n.choose k := by
          have := cnsRank_lt_choose c hp n hb
          rwa [hlen] at this
        have hceq : c = (combStepN (cnsRank c) (mkCombGen k)).indices := by
          refine cnsRank_injective c _ hp (combStepN_pairwise k _) ?_ ?_
          · rw [hlen, combStepN_len]
          · rw [combStepN_rank k _ hk]
        rw [hidx]
        refine List.mem_map.mpr ⟨cnsRank c, ?_, hceq.symm⟩
        rw [List.mem_range]
        exact hrank
      · intro fuel hf
        rw [hmap fuel hf, hidx]
  · intro fuel hf
    rw [sliceCombRun_eq_map]
    have hrun := combGenRun_eq_map 5 10 (mkCombGen 3) (by decide) (by decide) fuel
      (by omega)
    rw [show ([1, 2, 3, 4, 5] : List Nat).length = 5 from rfl]
    rw [show (10 : Nat) = Nat.choose 5 3 from rfl] at hrun
    rw [hrun]
    decide

/-- Witness for claim C1 at the concrete instance `N = 5`, `K = 3`. -/
theorem claim_C1_witness :
    (3 ≤ 5 ∧ (combIdxRun 5 3).length = Nat.choose 5 3) ∧
    (10 ≤ 11 ∧ sliceCombRun [1, 2, 3, 4, 5] 11 (mkCombGen 3) =
      [[1, 2, 3], [1, 2, 4], [1, 3, 4], [2, 3, 4], [1, 2, 5], [1, 3, 5], [2, 3, 5],
        [1, 4, 5], [2, 4, 5], [3, 4, 5]].map fun c => c.map some) :=
  ⟨⟨by decide, (claim_C1.1 5 3 (by decide)).1⟩, ⟨by decide, claim_C1.2 11 (by decide)⟩⟩

/-! ### Pull-equation lemmas for the adapters -/

theorem sliceCombNext_of_done (items : List α) (g : CombGen)
    (h : g.isDone items.length = true) : sliceCombNext items g = (none, g) := by
  unfold sliceCombNext
  rw [if_pos h]

theorem sliceCombNext_of_not_done (items : List α) (g : CombGen)
    (h : g.isDone items.length = false) :
    sliceCombNext items g = (some (g.indices.map fun i => items.get? i), g.step) := by
  unfold sliceCombNext
  rw [if_neg (by simp [h])]

theorem slicePermNext_of_done (items : List α) (st : PermState)
    (h : st.comb.isDone items.length = true) : slicePermNext items st = (none, st) := by
  unfold slicePermNext
  rw [if_pos h]

theorem slicePermNext_of_not_done (items : List α) (st : PermState)
    (h : st.comb.isDone items.length = false) :
    slicePermNext items st =
      (if st.perm.step.isDone then
        (some (st.perm.indices.map fun p => (st.comb.indices.get? p).bind fun ci => items.get? ci),
          { comb := st.comb.step, perm := mkPermGen st.perm.indices.length })
      else
        (some (st.perm.indices.map fun p => (st.comb.indices.get? p).bind fun ci => items.get? ci),
          { comb := st.comb, perm := st.perm.step })) := by
  unfold slicePermNext
  rw [if_neg (by simp [h])]

theorem fillComb_g (s : SeqCombIter α) : (fillComb s).g = s.g := by
  unfold fillComb
  split <;> rfl

theorem fillComb_len (s : SeqCombIter α) :
    (fillComb s).items.length ≤ s.items.length + s.src.length := by
  unfold fillComb
  split
  · exact Nat.le_add_right _ _
  · simp only [List.length_append, List.length_take]
    omega

theorem fillPerm_st (s : SeqPermIter α) : (fillPerm s).st = s.st := by
  unfold fillPerm
  split <;> rfl

theorem fillPerm_len (s : SeqPermIter α) :
    (fillPerm s).items.length ≤ s.items.length + s.src.length := by
  unfold fillPerm
  split
  · exact Nat.le_add_right _ _
  · simp only [List.length_append, List.length_take]
    omega

theorem seqCombNext_done (s : SeqCombIter α)
    (h : s.g.isDone (fillComb s).items.length = true) :
    seqCombNext s = (none, fillComb s) := by
  unfold seqCombNext
  dsimp only
  rw [show sliceCombNext (fillComb s).items (fillComb s).g = (none, (fillComb s).g) from by
    rw [fillComb_g]
    exact sliceCombNext_of_done _ _ h]

theorem seqCombNext_some (s : SeqCombIter α)
    (h : s.g.isDone (fillComb s).items.length = false) :
    seqCombNext s = (some (s.g.indices.map fun i => (fillComb s).items.get? i),
      { fillComb s with g := s.g.step }) := by
  unfold seqCombNext
  dsimp only
  rw [show sliceCombNext (fillComb s).items (fillComb s).g =
      (some (s.g.indices.map fun i => (fillComb s).items.get? i), s.g.step) from by
    rw [fillComb_g]
    exact sliceCombNext_of_not_done _ _ h]

theorem seqPermNext_done (s : SeqPermIter α)
    (h : s.st.comb.isDone (fillPerm s).items.length = true) :
    seqPermNext s = (none, fillPerm s) := by
  unfold seqPermNext
  dsimp only
  rw [show slicePermNext (fillPerm s).items (fillPerm s).st = (none, (fillPerm s).st) from by
    rw [fillPerm_st]
    exact slicePermNext_of_done _ _ h]

theorem resumeFill_g (full : List Nat) (avail : Nat) (s : ResumeCombIter) :
    (fillResume full avail s).g = s.g := by
  unfold fillResume
  split <;> rfl

theorem resumeCombNext_done (full : List Nat) (avail : Nat) (s : ResumeCombIter)
    (h : s.g.isDone (fillResume full avail s).items.length = true) :
    resumeCombNext full avail s = (none, fillResume full avail s) := by
  unfold resumeCombNext
  dsimp only
  rw [show sliceCombNext (fillResume full avail s).items (fillResume full avail s).g =
      (none, (fillResume full avail s).g) from by
    rw [resumeFill_g]
    exact sliceCombNext_of_done _ _ h]

theorem resumeCombNext_some (full : List Nat) (avail : Nat) (s : ResumeCombIter)
    (h : s.g.isDone (fillResume full avail s).items.length = false) :
    resumeCombNext full avail s =
      (some (s.g.indices.map fun i => (fillResume full avail s).items.get? i),
        { fillResume full avail s with g := s.g.step }) := by
  unfold resumeCombNext
  dsimp only
  rw [show sliceCombNext (fillResume full avail s).items (fillResume full avail s).g =
      (some (s.g.indices.map fun i => (fillResume full avail s).items.get? i), s.g.step) from by
    rw [resumeFill_g]
    exact sliceCombNext_of_not_done _ _ h]

/-! ### Exhausted-generator run lemmas and claims C6, C7, C8 -/

theorem sliceCombRun_of_done (items : List α) (g : CombGen) (h : g.done = true) :
    ∀ f, sliceCombRun items f g = [] := by
  intro f
  cases f with
  | zero => rfl
  | succ f => simp [sliceCombRun, sliceCombNext, CombGen.isDone, h]

theorem slicePermRun_of_done (items : List α) (s : PermState) (h : s.comb.done = true) :
    ∀ f, slicePermRun items f s = [] := by
  intro f
  cases f with
  | zero => rfl
  | succ f => simp [slicePermRun, slicePermNext, CombGen.isDone, h]

theorem seqCombRun_of_done (s : SeqCombIter α) (h : s.g.done = true) :
    ∀ f, seqCombRun f s = [] := by
  intro f
  cases f with
  | zero => rfl
  | succ f =>
    have hd : s.g.isDone (fillComb s).items.length = true := by
      simp [CombGen.isDone, h]
    show (match seqCombNext s with | (none, _) => [] | (some r, s2) => r :: seqCombRun f s2) = []
    rw [seqCombNext_done s hd]

theorem seqPermRun_of_done (s : SeqPermIter α) (h : s.st.comb.done = true) :
    ∀ f, seqPermRun f s = [] := by
  intro f
  cases f with
  | zero => rfl
  | succ f =>
    have hd : s.st.comb.isDone (fillPerm s).items.length = true := by
      simp [CombGen.isDone, h]
    show (match seqPermNext s with | (none, _) => [] | (some r, s2) => r :: seqPermRun f s2) = []
    rw [seqPermNext_done s hd]

/-- Claim C6: for `K = 0` all four adapters emit exactly one empty tuple on the
first pull, regardless of the source, and report exhaustion on every subsequent
pull; realized by a single `step()` on the `K = 0` generator setting `done`. -/
theorem claim_C6 :
    (∀ (α : Type) (items : List α) (fuel : Nat), 1 ≤ fuel →
      sliceCombRun items fuel (mkCombGen 0) = [[]] ∧
      slicePermRun items fuel (mkPermState 0) = [[]] ∧
      seqCombRun fuel (mkSeqCombIter items 0) = [[]] ∧
      seqPermRun fuel (mkSeqPermIter items 0) = [[]]) ∧
    (mkCombGen 0).step.done = true := by
  refine ⟨?_, rfl⟩
  intro α items fuel hf
  rcases fuel with _ | f
  · omega
  refine ⟨?_, ?_, ?_, ?_⟩
  · have h1 : sliceCombNext items (mkCombGen 0) =
        (some [], CombGen.mk [] true) := rfl
    simp only [sliceCombRun, h1]
    rw [sliceCombRun_of_done items _ rfl f]
  · have h1 : slicePermNext items (mkPermState 0) =
        (some [], PermState.mk (CombGen.mk [] true) (mkPermGen 0)) := rfl
    simp only [slicePermRun, h1]
    rw [slicePermRun_of_done items _ rfl f]
  · have h1 : seqCombNext (mkSeqCombIter items 0) =
        (some [], SeqCombIter.mk items [] (CombGen.mk [] true)) := rfl
    simp only [seqCombRun, h1]
    rw [seqCombRun_of_done _ rfl f]
  · have h1 : seqPermNext (mkSeqPermIter items 0) =
        (some [], SeqPermIter.mk items []
          (PermState.mk (CombGen.mk [] true) (mkPermGen 0))) := rfl
    simp only [seqPermRun, h1]
    rw [seqPermRun_of_done _ rfl f]

theorem mkCombGen_maxIndex (k : Nat) (hk : k ≠ 0) :
    (mkCombGen k).maxIndex = some (k - 1) := by
  rcases k with _ | m
  · omega
  unfold CombGen.maxIndex mkCombGen
  rw [List.range_succ, List.getLast?_concat]
  rfl

theorem mkCombGen_isDone (k n : Nat) (h : n < k) : (mkCombGen k).isDone n = true := by
  have hk : k ≠ 0 := by omega
  unfold CombGen.isDone
  rw [mkCombGen_maxIndex k hk]
  simp only [mkCombGen, Bool.false_or, decide_eq_true_eq]
  omega

/-- Claim C7: when `K` exceeds the total number of elements the source can ever
provide, all adapters emit zero tuples — every pull from the very first returns
exhaustion, because `is_done` holds before any value is produced. -/
theorem claim_C7 : ∀ (α : Type) (items : List α) (k : Nat), items.length < k →
    (∀ fuel, sliceCombRun items fuel (mkCombGen k) = []) ∧
    (∀ fuel, seqCombRun fuel (mkSeqCombIter items k) = []) ∧
    (∀ fuel, slicePermRun items fuel (mkPermState k) = []) ∧
    (∀ fuel, seqPermRun fuel (mkSeqPermIter items k) = []) ∧
    (mkCombGen k).isDone items.length = true := by
  intro α items k hlen
  have hdone := mkCombGen_isDone k items.length hlen
  have hfc : (fillComb (mkSeqCombIter items k)).items.length < k := by
    have h1 := fillComb_len (mkSeqCombIter items k)
    have h2 : (mkSeqCombIter items k).items.length = 0 := rfl
    have h3 : (mkSeqCombIter items k).src.length = items.length := rfl
    omega
  have hfp : (fillPerm (mkSeqPermIter items k)).items.length < k := by
    have h1 := fillPerm_len (mkSeqPermIter items k)
    have h2 : (mkSeqPermIter items k).items.length = 0 := rfl
    have h3 : (mkSeqPermIter items k).src.length = items.length := rfl
    omega
  refine ⟨?_, ?_, ?_, ?_, hdone⟩
  · intro fuel
    cases fuel with
    | zero => rfl
    | succ f =>
      simp only [sliceCombRun, sliceCombNext_of_done items _ (mkCombGen_isDone k _ hlen)]
  · intro fuel
    cases fuel with
    | zero => rfl
    | succ f =>
      show (match seqCombNext (mkSeqCombIter items k) with
        | (none, _) => [] | (some r, s2) => r :: seqCombRun f s2) = []
      rw [seqCombNext_done _ (show (mkSeqCombIter items k).g.isDone
        (fillComb (mkSeqCombIter items k)).items.length = true from
        mkCombGen_isDone k _ hfc)]
  · intro fuel
    cases fuel with
    | zero => rfl
    | succ f =>
      simp only [slicePermRun, slicePermNext_of_done items (mkPermState k)
        (show (mkPermState k).comb.isDone items.length = true from
          mkCombGen_isDone k _ hlen)]
  · intro fuel
    cases fuel with
    | zero => rfl
    | succ f =>
      show (match seqPermNext (mkSeqPermIter items k) with
        | (none, _) => [] | (some r, s2) => r :: seqPermRun f s2) = []
      rw [seqPermNext_done _ (show (mkSeqPermIter items k).st.comb.isDone
        (fillPerm (mkSeqPermIter items k)).items.length = true from
        mkCombGen_isDone k _ hfp)]

theorem isDone_false_bound (g : CombGen) (n : Nat) (h : g.isDone n = false)
    (hp : List.Pairwise (· < ·) g.indices) : ∀ x ∈ g.indices, x < n := by
  intro x hx
  rw [isDone_false_iff] at h
  rcases hml : g.indices.getLast? with _ | m
  · rw [List.getLast?_eq_none_iff] at hml
    rw [hml] at hx
    simp at hx
  · have hxm := pairwise_mem_le_getLast _ hp m hml x hx
    have := h.2 m hml
    omega

/-- Claim C8: state invariant of the combination generator — after any number
of steps the indices stay strictly ascending, the `done` flag can only be set
when `K = 0`, and whenever `is_done n` is false every held index is below `n`. -/
theorem claim_C8 : ∀ k t n : Nat,
    List.Pairwise (· < ·) (combStepN t (mkCombGen k)).indices ∧
    ((combStepN t (mkCombGen k)).done = true → k = 0) ∧
    ((combStepN t (mkCombGen k)).isDone n = false →
      ∀ x ∈ (combStepN t (mkCombGen k)).indices, x < n) := by
  intro k t n
  refine ⟨combStepN_pairwise k t, ?_, ?_⟩
  · intro hdone
    by_contra hk
    rw [combStepN_done_false k t hk] at hdone
    simp at hdone
  · intro h
    exact isDone_false_bound _ n h (combStepN_pairwise k t)

/-- Witness for claim C8 at `K = 3`, two steps, domain size `5`. -/
theorem claim_C8_witness :
    List.Pairwise (· < ·) (combStepN 2 (mkCombGen 3)).indices ∧
    (∀ x ∈ (combStepN 2 (mkCombGen 3)).indices, x < 5) :=
  ⟨(claim_C8 3 2 5).1, (claim_C8 3 2 5).2.2 (by decide)⟩

/-! ### Position-map helpers -/

theorem getElem?_eq_some_getD (l : List Nat) (q : Nat) (hq : q < l.length) :
    l[q]? = some (l.getD q 0) := by
  rw [List.getElem?_eq_getElem hq, List.getD_eq_getElem?_getD, List.getElem?_eq_getElem hq]
  rfl

theorem getD_eq_getElem_zero (l : List Nat) (q : Nat) (hq : q < l.length) :
    l.getD q 0 = l[q] := by
  rw [List.getD_eq_getElem?_getD, List.getElem?_eq_getElem hq]
  rfl

theorem map_getD_range : ∀ (l : List Nat), ((List.range l.length).map fun p => l.getD p 0) = l
  | [] => rfl
  | a :: l => by
    rw [List.length_cons, List.range_succ_eq_map, List.map_cons, List.map_map]
    refine congrArg₂ List.cons rfl ?_
    have hc : ((fun p => (a :: l).getD p 0) ∘ Nat.succ) = fun p => l.getD p 0 := by
      funext p
      simp
    rw [hc]
    exact map_getD_range l

theorem range_map_perm (n : Nat) (f : Nat → Nat)
    (hinj : ∀ a, a < n → ∀ b, b < n → f a = f b → a = b)
    (hlt : ∀ a, a < n → f a < n) :
    ((List.range n).map f).Perm (List.range n) := by
  have hnd : ((List.range n).map f).Nodup := by
    refine List.Nodup.map_on ?_ (List.nodup_range n)
    intro x hx y hy hxy
    rw [List.mem_range] at hx hy
    exact hinj x hx y hy hxy
  have hsub : ((List.range n).map f) ⊆ List.range n := by
    intro x hx
    rcases List.mem_map.mp hx with ⟨a, ha, rfl⟩
    rw [List.mem_range] at ha ⊢
    exact hlt a ha
  exact (hnd.subperm hsub).perm_of_length_le (by simp)

theorem permuteBy_perm (f : Nat → Nat) (l : List Nat)
    (hinj : ∀ a, a < l.length → ∀ b, b < l.length → f a = f b → a = b)
    (hlt : ∀ a, a < l.length → f a < l.length) :
    (permuteBy f l).Perm l := by
  unfold permuteBy
  have h1 : ((List.range l.length).map fun p => l.getD (f p) 0)
      = ((List.range l.length).map f).map fun p => l.getD p 0 := by
    rw [List.map_map]
    rfl
  rw [h1]
  have h2 := (range_map_perm l.length f hinj hlt).map fun p => l.getD p 0
  exact h2.trans (List.Perm.of_eq (map_getD_range l))

theorem permuteBy_length (f : Nat → Nat) (l : List Nat) :
    (permuteBy f l).length = l.length := by
  simp [permuteBy]

theorem permuteBy_getD (f : Nat → Nat) (l : List Nat) (p : Nat) (hp : p < l.length) :
    (permuteBy f l).getD p 0 = l.getD (f p) 0 := by
  unfold permuteBy
  rw [List.getD_eq_getElem?_getD, List.getElem?_map, List.getElem?_range hp]
  rfl

theorem swapFun_invol (i j p : Nat) : swapFun i j (swapFun i j p) = p := by
  unfold swapFun
  split_ifs <;> omega

theorem swapFun_lt (i j p n : Nat) (hi : i < n) (hj : j < n) (hp : p < n) :
    swapFun i j p < n := by
  unfold swapFun
  split_ifs <;> omega

theorem swapFun_inj (i j a b : Nat) (h : swapFun i j a = swapFun i j b) : a = b := by
  have ha := swapFun_invol i j a
  rw [h] at ha
  exact ha.symm.trans (swapFun_invol i j b)

theorem listSwap_length (l : List Nat) (i j : Nat) : (listSwap l i j).length = l.length := by
  simp [listSwap]

theorem listSwap_eq_permuteBy (l : List Nat) (i j : Nat) :
    listSwap l i j = permuteBy (swapFun i j) l := by
  apply List.ext_getElem
  · rw [listSwap_length, permuteBy_length]
  intro p hp hp2
  have hpl : p < l.length := by
    have := permuteBy_length (swapFun i j) l
    omega
  unfold permuteBy swapFun
  simp only [List.getElem_map, List.getElem_range]
  unfold listSwap
  rw [List.getElem_set, List.getElem_set]
  split_ifs <;>
    first
      | omega
      | (rw [show i = j from by omega])
      | (exact (getD_eq_getElem_zero l p hpl).symm)

theorem listSwap_perm (l : List Nat) (i j : Nat) (hi : i < l.length) (hj : j < l.length) :
    (listSwap l i j).Perm l := by
  rw [listSwap_eq_permuteBy l i j]
  exact permuteBy_perm _ _ (fun a _ b _ h => swapFun_inj i j a b h)
    (fun a ha => swapFun_lt i j a _ hi hj ha)

/-! ### Permutation-generator invariants -/

theorem getD_set_self (l : List Nat) (i a : Nat) (h : i < l.length) :
    (l.set i a).getD i 0 = a := by
  rw [List.getD_eq_getElem?_getD, List.getElem?_set, if_pos rfl, if_pos h]
  rfl

theorem getD_set_diff (l : List Nat) (i p a : Nat) (h : i ≠ p) :
    (l.set i a).getD p 0 = l.getD p 0 := by
  rw [List.getD_eq_getElem?_getD, List.getElem?_set, if_neg h, ← List.getD_eq_getElem?_getD]

theorem permScan_fst_length : ∀ (cs : List Nat) (i f : Nat),
    (permScan cs i f).1.length = cs.length
  | _, _, 0 => rfl
  | cs, i, f + 1 => by
    unfold permScan
    split
    · rw [permScan_fst_length (cs.set i 0) (i + 1) f]
      simp
    · rfl

theorem permScan_ge : ∀ (cs : List Nat) (i f : Nat), i ≤ (permScan cs i f).2
  | _, i, 0 => le_refl i
  | cs, i, f + 1 => by
    unfold permScan
    split
    · exact le_trans (Nat.le_succ i) (permScan_ge (cs.set i 0) (i + 1) f)
    · exact le_refl i

theorem permScan_stop : ∀ (cs : List Nat) (i f : Nat), cs.length ≤ i + f →
    (permScan cs i f).2 < cs.length →
    (permScan cs i f).1.getD (permScan cs i f).2 0 < (permScan cs i f).2
  | cs, i, 0, hf, hlt => by
    simp only [permScan] at hlt ⊢
    omega
  | cs, i, f + 1, hf, hlt => by
    by_cases h : i < cs.length ∧ i ≤ cs.getD i 0
    · have he : permScan cs i (f + 1) = permScan (cs.set i 0) (i + 1) f := by
        show (if i < cs.length ∧ i ≤ cs.getD i 0 then permScan (cs.set i 0) (i + 1) f
          else (cs, i)) = _
        rw [if_pos h]
      rw [he] at hlt ⊢
      exact permScan_stop (cs.set i 0) (i + 1) f (by rw [List.length_set]; omega)
        (by rw [List.length_set]; exact hlt)
    · have he : permScan cs i (f + 1) = (cs, i) := by
        show (if i < cs.length ∧ i ≤ cs.getD i 0 then permScan (cs.set i 0) (i + 1) f
          else (cs, i)) = _
        rw [if_neg h]
      rw [he] at hlt ⊢
      simp only at hlt ⊢
      omega

theorem permScan_getD : ∀ (cs : List Nat) (i f p : Nat),
    (permScan cs i f).1.getD p 0 = cs.getD p 0 ∨ (permScan cs i f).1.getD p 0 = 0
  | _, _, 0, _ => Or.inl rfl
  | cs, i, f + 1, p => by
    by_cases h : i < cs.length ∧ i ≤ cs.getD i 0
    · have he : permScan cs i (f + 1) = permScan (cs.set i 0) (i + 1) f := by
        show (if i < cs.length ∧ i ≤ cs.getD i 0 then permScan (cs.set i 0) (i + 1) f
          else (cs, i)) = _
        rw [if_pos h]
      rw [he]
      rcases permScan_getD (cs.set i 0) (i + 1) f p with h2 | h2
      · rw [h2]
        by_cases hip : i = p
        · subst hip
          right
          exact getD_set_self cs i 0 h.1
        · left
          exact getD_set_diff cs i p 0 hip
      · right
        exact h2
    · left
      have he : permScan cs i (f + 1) = (cs, i) := by
        show (if i < cs.length ∧ i ≤ cs.getD i 0 then permScan (cs.set i 0) (i + 1) f
          else (cs, i)) = _
        rw [if_neg h]
      rw [he]

theorem permStep_counters_length (g : PermGen) :
    g.step.counters.length = g.counters.length := by
  unfold PermGen.step
  dsimp only
  split
  · rw [List.length_set, permScan_fst_length]
  · exact permScan_fst_length _ _ _

theorem permStep_indices_length (g : PermGen) :
    g.step.indices.length = g.indices.length := by
  unfold PermGen.step
  dsimp only
  split
  · exact listSwap_length _ _ _
  · rfl

theorem permStep_done_mono (g : PermGen) (h : g.done = true) : g.step.done = true := by
  unfold PermGen.step
  dsimp only
  split
  · exact h
  · rfl

theorem permStep_countersOk (g : PermGen)
    (h : ∀ p, p < g.counters.length → g.counters.getD p 0 ≤ p) :
    ∀ p, p < g.step.counters.length → g.step.counters.getD p 0 ≤ p := by
  intro p hp
  rw [permStep_counters_length] at hp
  unfold PermGen.step
  dsimp only
  by_cases hc : (permScan g.counters 1 g.counters.length).2 < g.counters.length
  · rw [if_pos hc]
    dsimp only
    have hstop := permScan_stop g.counters 1 g.counters.length (by omega) hc
    by_cases hpr : (permScan g.counters 1 g.counters.length).2 = p
    · subst hpr
      rw [getD_set_self _ _ _ (by rw [permScan_fst_length]; exact hc)]
      omega
    · rw [getD_set_diff _ _ _ _ hpr]
      rcases permScan_getD g.counters 1 g.counters.length p with h2 | h2 <;> rw [h2]
      · exact h p hp
      · omega
  · rw [if_neg hc]
    dsimp only
    rcases permScan_getD g.counters 1 g.counters.length p with h2 | h2 <;> rw [h2]
    · exact h p hp
    · omega

theorem permStep_indices_perm (g : PermGen)
    (hlen : g.indices.length = g.counters.length) :
    g.step.indices.Perm g.indices := by
  unfold PermGen.step
  dsimp only
  by_cases hc : (permScan g.counters 1 g.counters.length).2 < g.counters.length
  · rw [if_pos hc]
    dsimp only
    have hge := permScan_ge g.counters 1 g.counters.length
    have hstop := permScan_stop g.counters 1 g.counters.length (by omega) hc
    refine listSwap_perm _ _ _ (by omega) ?_
    split_ifs <;> omega
  · rw [if_neg hc]

theorem permStepN_facts (k : Nat) : ∀ t : Nat,
    (permStepN t (mkPermGen k)).indices.length = k ∧
    (permStepN t (mkPermGen k)).counters.length = k ∧
    (∀ p, p < k → (permStepN t (mkPermGen k)).counters.getD p 0 ≤ p) ∧
    (permStepN t (mkPermGen k)).indices.Perm (List.range k) := by
  intro t
  induction t with
  | zero =>
    refine ⟨by simp [permStepN, mkPermGen], by simp [permStepN, mkPermGen], ?_,
      by simp [permStepN, mkPermGen]⟩
    intro p hp
    show (List.replicate k 0).getD p 0 ≤ p
    rw [List.getD_eq_getElem?_getD, List.getElem?_replicate]
    split <;> simp
  | succ t ih =>
    obtain ⟨h1, h2, h3, h4⟩ := ih
    refine ⟨?_, ?_, ?_, ?_⟩
    · rw [permStepN, permStep_indices_length, h1]
    · rw [permStepN, permStep_counters_length, h2]
    · intro p hp
      have := permStep_countersOk (permStepN t (mkPermGen k)) (by rw [h2]; exact h3) p
        (by rw [permStep_counters_length, h2]; exact hp)
      exact this
    · rw [permStepN]
      exact (permStep_indices_perm _ (by rw [h1, h2])).trans h4

/-- Claim C10: no element access goes out of bounds — whenever a pull of the
slice-backed combination adapter (or the composite permutation adapter, whose
`State::get_and_step` the sequence-backed adapters share) emits a tuple from a
reachable state, every `Option`-returning lookup in the tuple succeeded, and
the permutation generator's indices always form a permutation of `0..K`. -/
theorem claim_C10 :
    (∀ (α : Type) (items : List α) (k t : Nat) (r : List (Option α)) (g2 : CombGen),
      sliceCombNext items (combStepN t (mkCombGen k)) = (some r, g2) →
      ∀ o ∈ r, ∃ v, o = some v) ∧
    (∀ k i : Nat, (permStepN i (mkPermGen k)).indices.Perm (List.range k)) ∧
    (∀ (α : Type) (items : List α) (k i j : Nat) (r : List (Option α)) (s2 : PermState),
      slicePermNext items
        { comb := combStepN j (mkCombGen k), perm := permStepN i (mkPermGen k) } =
        (some r, s2) →
      ∀ o ∈ r, ∃ v, o = some v) := by
  refine ⟨?_, fun k i => (permStepN_facts k i).2.2.2, ?_⟩
  · intro α items k t r g2 heq o ho
    have hd2 : (combStepN t (mkCombGen k)).isDone items.length = false := by
      cases h : (combStepN t (mkCombGen k)).isDone items.length
      · rfl
      · rw [sliceCombNext_of_done _ _ h] at heq
        simp at heq
    rw [sliceCombNext_of_not_done _ _ hd2] at heq
    have hr : r = (combStepN t (mkCombGen k)).indices.map fun idx => items.get? idx := by
      have h2 := congrArg Prod.fst heq
      simp at h2
      simpa using h2.symm
    subst hr
    rcases List.mem_map.mp ho with ⟨idx, hidx, rfl⟩
    have hb := isDone_false_bound _ items.length hd2 (combStepN_pairwise k t) idx hidx
    exact ⟨items.get ⟨idx, hb⟩, List.get?_eq_get hb⟩
  · intro α items k i j r s2 heq o ho
    have hd2 : (combStepN j (mkCombGen k)).isDone items.length = false := by
      cases h : (combStepN j (mkCombGen k)).isDone items.length
      · rfl
      · rw [slicePermNext_of_done items _
          (show (PermState.mk (combStepN j (mkCombGen k)) (permStepN i (mkPermGen k))).comb.isDone
            items.length = true from h)] at heq
        simp at heq
    rw [slicePermNext_of_not_done items _
      (show (PermState.mk (combStepN j (mkCombGen k)) (permStepN i (mkPermGen k))).comb.isDone
        items.length = false from hd2)] at heq
    have hr : r = (permStepN i (mkPermGen k)).indices.map fun p =>
        ((combStepN j (mkCombGen k)).indices.get? p).bind fun ci => items.get? ci := by
      by_cases hpg : (permStepN i (mkPermGen k)).step.isDone
      · rw [if_pos hpg] at heq
        have h2 := congrArg Prod.fst heq
        simp at h2
        simpa using h2.symm
      · rw [if_neg hpg] at heq
        have h2 := congrArg Prod.fst heq
        simp at h2
        simpa using h2.symm
    subst hr
    rcases List.mem_map.mp ho with ⟨p, hp, rfl⟩
    have hplt : p < k := by
      have hmem := ((permStepN_facts k i).2.2.2).subset hp
      rw [List.mem_range] at hmem
      exact hmem
    have hplen : p < (combStepN j (mkCombGen k)).indices.length := by
      rw [combStepN_len]
      exact hplt
    rw [List.get?_eq_get hplen]
    have hci : (combStepN j (mkCombGen k)).indices.get ⟨p, hplen⟩ ∈
        (combStepN j (mkCombGen k)).indices := List.get_mem _ _ _
    have hcb := isDone_false_bound _ items.length hd2 (combStepN_pairwise k j) _ hci
    exact ⟨items.get ⟨_, hcb⟩, by rw [Option.some_bind, List.get?_eq_get hcb]⟩

/-- Witness for claim C10 at a concrete pull. -/
theorem claim_C10_witness :
    (∃ v, (some 10 : Option Nat) = some v) ∧
    (∃ v, (some 20 : Option Nat) = some v) :=
  ⟨claim_C10.1 Nat [10, 20, 30] 2 0 [some 10, some 20] (CombGen.mk [0, 2] false)
      (by rfl) (some 10) (by decide),
    claim_C10.2.2 Nat [10, 20, 30] 2 0 0 [some 10, some 20]
      (PermState.mk (CombGen.mk [0, 1] false) (PermGen.mk [1, 0] [0, 1] false))
      (by rfl) (some 20) (by decide)⟩

/-! ### Sequence-backed adapters agree with the slice-backed ones (claim C9) -/

theorem combStep_pairwise (g : CombGen) (h : List.Pairwise (· < ·) g.indices) :
    List.Pairwise (· < ·) g.step.indices :=
  List.chain'_iff_pairwise.mp (combStep_chain g (List.chain'_iff_pairwise.mpr h))

theorem sliceCombRun_cons (items : List α) (fuel : Nat) (g : CombGen) (r : List (Option α))
    (g2 : CombGen) (h : sliceCombNext items g = (some r, g2)) :
    sliceCombRun items (fuel + 1) g = r :: sliceCombRun items fuel g2 := by
  show (match sliceCombNext items g with
    | (none, _) => [] | (some r, g2) => r :: sliceCombRun items fuel g2) = _
  rw [h]

theorem sliceCombRun_nil (items : List α) (fuel : Nat) (g : CombGen)
    (h : (sliceCombNext items g).1 = none) :
    sliceCombRun items (fuel + 1) g = [] := by
  show (match sliceCombNext items g with
    | (none, _) => [] | (some r, g2) => r :: sliceCombRun items fuel g2) = []
  rcases he : sliceCombNext items g with ⟨o, g2⟩
  rw [he] at h
  simp at h
  subst h
  rfl

theorem seqCombRun_cons (fuel : Nat) (s : SeqCombIter α) (r : List (Option α))
    (g2 : CombGen) (h : sliceCombNext (fillComb s).items s.g = (some r, g2)) :
    seqCombRun (fuel + 1) s = r :: seqCombRun fuel { fillComb s with g := g2 } := by
  show (match seqCombNext s with
    | (none, _) => [] | (some r, s2) => r :: seqCombRun fuel s2) = _
  unfold seqCombNext
  dsimp only
  rw [show sliceCombNext (fillComb s).items (fillComb s).g = (some r, g2) from by
    rw [fillComb_g]; exact h]

theorem seqCombRun_nil (fuel : Nat) (s : SeqCombIter α)
    (h : (sliceCombNext (fillComb s).items s.g).1 = none) :
    seqCombRun (fuel + 1) s = [] := by
  show (match seqCombNext s with
    | (none, _) => [] | (some r, s2) => r :: seqCombRun fuel s2) = []
  unfold seqCombNext
  dsimp only
  rcases he : sliceCombNext (fillComb s).items (fillComb s).g with ⟨o, g2⟩
  rw [fillComb_g] at he
  rw [he] at h
  simp at h
  subst h
  rfl

theorem sliceCombRun_succ (items : List α) (fuel : Nat) (g : CombGen) :
    sliceCombRun items (fuel + 1) g =
      match sliceCombNext items g with
      | (none, _) => []
      | (some r, g2) => r :: sliceCombRun items fuel g2 := rfl

theorem seqCombRun_mk_succ (fuel : Nat) (rest buffer : List α) (g : CombGen) :
    seqCombRun (fuel + 1) (SeqCombIter.mk rest buffer g) =
      match sliceCombNext (fillComb (SeqCombIter.mk rest buffer g)).items g with
      | (none, _) => []
      | (some r, g2) =>
        r :: seqCombRun fuel (SeqCombIter.mk (fillComb (SeqCombIter.mk rest buffer g)).src
          (fillComb (SeqCombIter.mk rest buffer g)).items g2) := by
  show (match seqCombNext (SeqCombIter.mk rest buffer g) with
    | (none, _) => [] | (some r, s2) => r :: seqCombRun fuel s2) = _
  unfold seqCombNext
  dsimp only
  rw [fillComb_g]
  dsimp only
  rcases hsc : sliceCombNext (fillComb (SeqCombIter.mk rest buffer g)).items g with ⟨o, g2⟩
  cases o <;> rfl

theorem seqCombRun_eq_slice : ∀ (fuel : Nat) (S buffer rest : List α) (g : CombGen),
    buffer ++ rest = S → List.Pairwise (· < ·) g.indices →
    seqCombRun fuel (SeqCombIter.mk rest buffer g) = sliceCombRun S fuel g := by
  intro fuel
  induction fuel with
  | zero => intro S buffer rest g _ _; rfl
  | succ fuel ih =>
    intro S buffer rest g hS hp
    rw [seqCombRun_mk_succ, sliceCombRun_succ]
    by_cases hemp : g.indices.isEmpty = true
    · have he : g.indices = [] := by simpa using hemp
      have hfill : fillComb (SeqCombIter.mk rest buffer g) = SeqCombIter.mk rest buffer g := by
        unfold fillComb
        rw [if_pos hemp]
      have hiso : ∀ n, g.isDone n = g.done := by
        intro n
        unfold CombGen.isDone CombGen.maxIndex
        rw [he]
        simp
      rw [hfill]
      cases hdone : g.done
      · rw [sliceCombNext_of_not_done (SeqCombIter.mk rest buffer g).items g
          (by rw [hiso]; exact hdone)]
        rw [sliceCombNext_of_not_done S g (by rw [hiso]; exact hdone)]
        dsimp only
        rw [he]
        refine congrArg₂ List.cons rfl ?_
        exact ih S buffer rest g.step hS (combStep_pairwise g hp)
      · rw [sliceCombNext_of_done (SeqCombIter.mk rest buffer g).items g
          (by rw [hiso]; exact hdone)]
        rw [sliceCombNext_of_done S g (by rw [hiso]; exact hdone)]
    · have hne : g.indices ≠ [] := by
        intro hcon
        rw [hcon] at hemp
        simp at hemp
      have hms : ∃ m, g.maxIndex = some m := by
        unfold CombGen.maxIndex
        rcases hml : g.indices.getLast? with _ | m
        · rw [List.getLast?_eq_none_iff] at hml
          exact absurd hml hne
        · exact ⟨m, rfl⟩
      rcases hms with ⟨m, hm⟩
      have hfill : fillComb (SeqCombIter.mk rest buffer g) =
          SeqCombIter.mk (rest.drop (m + 1 - buffer.length))
            (buffer ++ rest.take (m + 1 - buffer.length)) g := by
        unfold fillComb
        dsimp only
        rw [if_neg (by simp [hemp])]
        rw [show (SeqCombIter.mk rest buffer g).g.maxIndex = some m from hm]
      have hSlen : S.length = buffer.length + rest.length := by
        rw [← hS, List.length_append]
      have hlen1 : (buffer ++ rest.take (m + 1 - buffer.length)).length =
          buffer.length + min (m + 1 - buffer.length) rest.length := by
        rw [List.length_append, List.length_take]
      have hiso : g.isDone (buffer ++ rest.take (m + 1 - buffer.length)).length =
          g.isDone S.length := by
        unfold CombGen.isDone
        rw [hm]
        dsimp only
        have harg : decide ((buffer ++ rest.take (m + 1 - buffer.length)).length ≤ m) =
            decide (S.length ≤ m) := by
          rw [decide_eq_decide]
          constructor <;> intro <;> omega
        rw [harg]
      have hS2 : (buffer ++ rest.take (m + 1 - buffer.length)) ++
          rest.drop (m + 1 - buffer.length) = S := by
        rw [List.append_assoc, List.take_append_drop]
        exact hS
      rw [hfill]
      dsimp only
      cases hd : g.isDone S.length
      · have hd1 : g.isDone (buffer ++ rest.take (m + 1 - buffer.length)).length = false := by
          rw [hiso]
          exact hd
        have hmlt : m < (buffer ++ rest.take (m + 1 - buffer.length)).length :=
          ((isDone_false_iff g _).mp hd1).2 m hm
        rw [sliceCombNext_of_not_done _ g hd1, sliceCombNext_of_not_done S g hd]
        dsimp only
        refine congrArg₂ List.cons ?_ ?_
        · apply List.map_congr_left
          intro idx hidx
          have hbound : idx ≤ m := pairwise_mem_le_getLast g.indices hp m hm idx hidx
          have hlt : idx < (buffer ++ rest.take (m + 1 - buffer.length)).length := by omega
          rw [List.get?_eq_getElem?, List.get?_eq_getElem?, ← hS2,
            List.getElem?_append_left hlt]
        · exact ih S (buffer ++ rest.take (m + 1 - buffer.length))
            (rest.drop (m + 1 - buffer.length)) g.step hS2 (combStep_pairwise g hp)
      · have hd1 : g.isDone (buffer ++ rest.take (m + 1 - buffer.length)).length = true := by
          rw [hiso]
          exact hd
        rw [sliceCombNext_of_done _ g hd1, sliceCombNext_of_done S g hd]

/-- Claim C9: over any finite element list, the sequence-backed combination
adapter and the slice-backed combination adapter produce identical output
sequences — the same length and at each position the same index tuple resolved
to the same elements (values versus references being invisible to the
embedding). -/
theorem claim_C9 : ∀ (α : Type) (S : List α) (k fuel : Nat),
    seqCombRun fuel (mkSeqCombIter S k) = sliceCombRun S fuel (mkCombGen k) := by
  intro α S k fuel
  exact seqCombRun_eq_slice fuel S [] S (mkCombGen k) (by simp)
    (List.pairwise_lt_range k)

theorem slicePermRun_succ (items : List α) (fuel : Nat) (st : PermState) :
    slicePermRun items (fuel + 1) st =
      match slicePermNext items st with
      | (none, _) => []
      | (some r, st2) => r :: slicePermRun items fuel st2 := rfl

theorem seqPermRun_mk_succ (fuel : Nat) (rest buffer : List α) (st : PermState) :
    seqPermRun (fuel + 1) (SeqPermIter.mk rest buffer st) =
      match slicePermNext (fillPerm (SeqPermIter.mk rest buffer st)).items st with
      | (none, _) => []
      | (some r, st2) =>
        r :: seqPermRun fuel (SeqPermIter.mk (fillPerm (SeqPermIter.mk rest buffer st)).src
          (fillPerm (SeqPermIter.mk rest buffer st)).items st2) := by
  show (match seqPermNext (SeqPermIter.mk rest buffer st) with
    | (none, _) => [] | (some r, s2) => r :: seqPermRun fuel s2) = _
  unfold seqPermNext
  dsimp only
  rw [fillPerm_st]
  dsimp only
  rcases hsc : slicePermNext (fillPerm (SeqPermIter.mk rest buffer st)).items st with ⟨o, st2⟩
  cases o <;> rfl

theorem seqPermRun_eq_slice : ∀ (fuel : Nat) (S buffer rest : List α) (st : PermState),
    buffer ++ rest = S → List.Pairwise (· < ·) st.comb.indices →
    seqPermRun fuel (SeqPermIter.mk rest buffer st) = slicePermRun S fuel st := by
  intro fuel
  induction fuel with
  | zero => intro S buffer rest st _ _; rfl
  | succ fuel ih =>
    intro S buffer rest st hS hp
    rw [seqPermRun_mk_succ, slicePermRun_succ]
    have hnext : ∀ st2 : PermState,
        (if st.perm.step.isDone = true then
          PermState.mk st.comb.step (mkPermGen st.perm.indices.length)
        else PermState.mk st.comb st.perm.step) = st2 →
        List.Pairwise (· < ·) st2.comb.indices := by
      intro st2 h2
      rw [← h2]
      split
      · exact combStep_pairwise st.comb hp
      · exact hp
    by_cases hemp : st.comb.indices.isEmpty = true
    · have he : st.comb.indices = [] := by simpa using hemp
      have hfill : fillPerm (SeqPermIter.mk rest buffer st) = SeqPermIter.mk rest buffer st := by
        unfold fillPerm
        rw [if_pos hemp]
      have hiso : ∀ n, st.comb.isDone n = st.comb.done := by
        intro n
        unfold CombGen.isDone CombGen.maxIndex
        rw [he]
        simp
      rw [hfill]
      cases hdone : st.comb.done
      · rw [slicePermNext_of_not_done (SeqPermIter.mk rest buffer st).items st
          (by rw [hiso]; exact hdone)]
        rw [slicePermNext_of_not_done S st (by rw [hiso]; exact hdone)]
        have hmap : ∀ items2 : List α, (st.perm.indices.map fun p =>
            (st.comb.indices.get? p).bind fun ci => items2.get? ci) =
            st.perm.indices.map fun _ => (none : Option α) := by
          intro items2
          apply List.map_congr_left
          intro p _
          rw [he]
          rfl
        by_cases hpg : st.perm.step.isDone = true
        · simp only [if_pos hpg]
          rw [hmap, hmap]
          refine congrArg₂ List.cons rfl ?_
          exact ih S buffer rest _ hS (combStep_pairwise st.comb hp)
        · simp only [if_neg hpg]
          rw [hmap, hmap]
          refine congrArg₂ List.cons rfl ?_
          exact ih S buffer rest _ hS hp
      · rw [slicePermNext_of_done (SeqPermIter.mk rest buffer st).items st
          (by rw [hiso]; exact hdone)]
        rw [slicePermNext_of_done S st (by rw [hiso]; exact hdone)]
    · have hne : st.comb.indices ≠ [] := by
        intro hcon
        rw [hcon] at hemp
        simp at hemp
      have hms : ∃ m, st.comb.maxIndex = some m := by
        unfold CombGen.maxIndex
        rcases hml : st.comb.indices.getLast? with _ | m
        · rw [List.getLast?_eq_none_iff] at hml
          exact absurd hml hne
        · exact ⟨m, rfl⟩
      rcases hms with ⟨m, hm⟩
      have hfill : fillPerm (SeqPermIter.mk rest buffer st) =
          SeqPermIter.mk (rest.drop (m + 1 - buffer.length))
            (buffer ++ rest.take (m + 1 - buffer.length)) st := by
        unfold fillPerm
        dsimp only
        rw [if_neg (by simp [hemp])]
        rw [show (SeqPermIter.mk rest buffer st).st.comb.maxIndex = some m from hm]
      have hSlen : S.length = buffer.length + rest.length := by
        rw [← hS, List.length_append]
      have hlen1 : (buffer ++ rest.take (m + 1 - buffer.length)).length =
          buffer.length + min (m + 1 - buffer.length) rest.length := by
        rw [List.length_append, List.length_take]
      have hiso : st.comb.isDone (buffer ++ rest.take (m + 1 - buffer.length)).length =
          st.comb.isDone S.length := by
        unfold CombGen.isDone
        rw [hm]
        dsimp only
        have harg : decide ((buffer ++ rest.take (m + 1 - buffer.length)).length ≤ m) =
            decide (S.length ≤ m) := by
          rw [decide_eq_decide]
          constructor <;> intro <;> omega
        rw [harg]
      have hS2 : (buffer ++ rest.take (m + 1 - buffer.length)) ++
          rest.drop (m + 1 - buffer.length) = S := by
        rw [List.append_assoc, List.take_append_drop]
        exact hS
      rw [hfill]
      dsimp only
      cases hd : st.comb.isDone S.length
      · have hd1 : st.comb.isDone (buffer ++ rest.take (m + 1 - buffer.length)).length
            = false := by
          rw [hiso]
          exact hd
        have hmlt : m < (buffer ++ rest.take (m + 1 - buffer.length)).length :=
          ((isDone_false_iff st.comb _).mp hd1).2 m hm
        rw [slicePermNext_of_not_done _ st hd1, slicePermNext_of_not_done S st hd]
        have hmap : (st.perm.indices.map fun p => (st.comb.indices.get? p).bind fun ci =>
            (buffer ++ rest.take (m + 1 - buffer.length)).get? ci) =
            st.perm.indices.map fun p => (st.comb.indices.get? p).bind fun ci =>
              S.get? ci := by
          apply List.map_congr_left
          intro p _
          rcases hci : st.comb.indices.get? p with _ | ci
          · rfl
          · have hmem : ci ∈ st.comb.indices := by
              rw [List.get?_eq_getElem?] at hci
              exact List.getElem?_mem hci
            have hbound : ci ≤ m := pairwise_mem_le_getLast st.comb.indices hp m hm ci hmem
            have hlt : ci < (buffer ++ rest.take (m + 1 - buffer.length)).length := by omega
            rw [Option.some_bind, Option.some_bind, List.get?_eq_getElem?,
              List.get?_eq_getElem?, ← hS2, List.getElem?_append_left hlt]
        by_cases hpg : st.perm.step.isDone = true
        · simp only [if_pos hpg]
          rw [hmap]
          refine congrArg₂ List.cons rfl ?_
          exact ih S (buffer ++ rest.take (m + 1 - buffer.length))
            (rest.drop (m + 1 - buffer.length)) _ hS2 (combStep_pairwise st.comb hp)
        · simp only [if_neg hpg]
          rw [hmap]
          refine congrArg₂ List.cons rfl ?_
          exact ih S (buffer ++ rest.take (m + 1 - buffer.length))
            (rest.drop (m + 1 - buffer.length)) _ hS2 hp
      · have hd1 : st.comb.isDone (buffer ++ rest.take (m + 1 - buffer.length)).length
            = true := by
          rw [hiso]
          exact hd
        rw [slicePermNext_of_done _ st hd1, slicePermNext_of_done S st hd]

/-! ### Resumability (claim C5) -/

theorem fillResume_stall (full : List Nat) (avail : Nat) (s : ResumeCombIter)
    (h : avail ≤ s.pos) : fillResume full avail s = s := by
  unfold fillResume
  split
  · rfl
  · have hz : avail - s.pos = 0 := by omega
    rw [hz]
    simp

theorem resumeRun_cons (full : List Nat) (a : Nat) (rest : List Nat) (s : ResumeCombIter) :
    resumeRun full (a :: rest) s =
      (resumeCombNext full a s).1 :: resumeRun full rest (resumeCombNext full a s).2 := by
  show (match resumeCombNext full a s with
    | (o, s2) => o :: resumeRun full rest s2) = _
  rcases resumeCombNext full a s with ⟨o, s2⟩
  rfl

theorem c5need_pos (s : Nat) : 1 ≤ c5need s := by
  rcases s with _ | _ | _ | _ | s <;> simp [c5need]

theorem c5need_mono (s : Nat) : c5need s ≤ c5need (s + 1) := by
  rcases s with _ | _ | _ | _ | s <;> simp [c5need]

theorem c5state_ne (s : Nat) (hs : s ≤ 4) :
    (combStepN s (mkCombGen 3)).indices.isEmpty = false := by
  interval_cases s <;> decide

theorem c5state_max (s : Nat) (hs : s ≤ 4) :
    (combStepN s (mkCombGen 3)).maxIndex = some (c5need s - 1) := by
  interval_cases s <;> decide

theorem c5fill (a bl scount : Nat) (hbl4 : bl ≤ 4) (hba : bl ≤ a)
    (hbn : bl ≤ c5need scount) (hs : scount ≤ 4) :
    fillResume [1, 2, 3, 4] a
      (ResumeCombIter.mk bl (List.take bl [1, 2, 3, 4]) (combStepN scount (mkCombGen 3))) =
    ResumeCombIter.mk (min (c5need scount) a)
      (List.take (min (c5need scount) a) [1, 2, 3, 4]) (combStepN scount (mkCombGen 3)) := by
  unfold fillResume
  dsimp only
  rw [if_neg (by rw [c5state_ne scount hs]; simp)]
  rw [show (ResumeCombIter.mk bl (List.take bl [1, 2, 3, 4])
      (combStepN scount (mkCombGen 3))).g.maxIndex = some (c5need scount - 1) from
    c5state_max scount hs]
  dsimp only
  have hlt : (List.take bl [1, 2, 3, 4]).length = bl := by
    rw [List.length_take]
    simp
    omega
  rw [hlt]
  have hne1 : c5need scount - 1 + 1 = c5need scount := by
    have := c5need_pos scount
    omega
  rw [hne1]
  have hpos : bl + min (c5need scount - bl) (a - bl) = min (c5need scount) a := by omega
  congr 1
  rw [show min (c5need scount) a = bl + min (c5need scount - bl) (a - bl) from hpos.symm]
  rw [List.take_add]

theorem c5run : ∀ (sch : List Nat) (scount bl aprev : Nat),
    List.Chain' (· ≤ ·) (aprev :: sch) → (∀ a ∈ sch, a ≤ 4) → aprev ≤ 4 →
    bl ≤ aprev → bl ≤ c5need scount → scount ≤ 4 →
    resumeRun [1, 2, 3, 4] sch
      (ResumeCombIter.mk bl (List.take bl [1, 2, 3, 4]) (combStepN scount (mkCombGen 3))) =
      (c5expected sch scount).map (Option.map fun t => t.map some) := by
  intro sch
  induction sch with
  | nil => intro scount bl aprev _ _ _ _ _ _; rfl
  | cons a rest ih =>
    intro scount bl aprev hchain hb4 hap4 hba hbn hs
    have haa : aprev ≤ a := (List.chain'_cons.mp hchain).1
    have ha4 : a ≤ 4 := hb4 a (by simp)
    have hchain2 : List.Chain' (· ≤ ·) (a :: rest) := (List.chain'_cons.mp hchain).2
    have hb42 : ∀ x ∈ rest, x ≤ 4 := fun x hx => hb4 x (by simp [hx])
    have hbl4 : bl ≤ 4 := by omega
    have hfill := c5fill a bl scount hbl4 (by omega) hbn hs
    have hdone_false : (combStepN scount (mkCombGen 3)).done = false :=
      combStepN_done_false 3 scount (by decide)
    rw [resumeRun_cons]
    by_cases hc : c5need scount ≤ a
    · -- enough available: the next tuple is emitted
      have hs3 : scount ≤ 3 := by
        by_contra hcon
        have h4 : scount = 4 := by omega
        rw [h4] at hc
        unfold c5need at hc
        simp at hc
        omega
      have hmin : min (c5need scount) a = c5need scount := min_eq_left hc
      have hlen2 : (List.take (c5need scount) [1, 2, 3, 4]).length = c5need scount := by
        rw [List.length_take]
        simp
        omega
      have hdf : (combStepN scount (mkCombGen 3)).isDone
          (List.take (min (c5need scount) a) [1, 2, 3, 4]).length = false := by
        rw [hmin, hlen2]
        unfold CombGen.isDone
        rw [c5state_max scount hs, hdone_false]
        simp
        have := c5need_pos scount
        omega
      have hnx := resumeCombNext_some [1, 2, 3, 4] a
        (ResumeCombIter.mk bl (List.take bl [1, 2, 3, 4]) (combStepN scount (mkCombGen 3)))
        (by rw [hfill]; exact hdf)
      rw [hnx]
      dsimp only
      rw [hfill, hmin]
      show (some ((combStepN scount (mkCombGen 3)).indices.map fun i =>
          (List.take (c5need scount) [1, 2, 3, 4]).get? i)) ::
          resumeRun [1, 2, 3, 4] rest
            (ResumeCombIter.mk (c5need scount) (List.take (c5need scount) [1, 2, 3, 4])
              (combStepN (scount + 1) (mkCombGen 3))) = _
      have hexp0 : c5expected (a :: rest) scount =
          if c5need scount ≤ a then some (c5tuple scount) :: c5expected rest (scount + 1)
          else none :: c5expected rest scount := rfl
      rw [hexp0, if_pos hc, List.map_cons]
      refine congrArg₂ List.cons ?_ ?_
      · interval_cases scount <;> decide
      · have hrec := ih (scount + 1) (c5need scount) a hchain2 hb42 ha4 hc
          (c5need_mono scount) (by omega)
        exact hrec
    · -- not enough available yet: no tuple, progress retained
      have hmin : min (c5need scount) a = a := by omega
      have hlen2 : (List.take a [1, 2, 3, 4]).length = a := by
        rw [List.length_take]
        simp
        omega
      have hdt : (combStepN scount (mkCombGen 3)).isDone
          (List.take (min (c5need scount) a) [1, 2, 3, 4]).length = true := by
        rw [hmin, hlen2]
        unfold CombGen.isDone
        rw [c5state_max scount hs, hdone_false]
        simp
        omega
      have hnx := resumeCombNext_done [1, 2, 3, 4] a
        (ResumeCombIter.mk bl (List.take bl [1, 2, 3, 4]) (combStepN scount (mkCombGen 3)))
        (by rw [hfill]; exact hdt)
      rw [hnx]
      dsimp only
      rw [hfill, hmin]
      have hexp0 : c5expected (a :: rest) scount =
          if c5need scount ≤ a then some (c5tuple scount) :: c5expected rest (scount + 1)
          else none :: c5expected rest scount := rfl
      rw [hexp0, if_neg hc, List.map_cons]
      refine congrArg₂ List.cons rfl ?_
      exact ih scount a a hchain2 hb42 ha4 (le_refl a) (by omega) hs

/-- Counterexample to claim C5 as stated: with the source `1,2,3,4` and
`K = 3`, after the pull that returns `[1,2,4]` the next pull does not return
`None` — it returns `[1,3,4]` (and the one after that `[2,3,4]`). -/
theorem claim_C5_counterexample :
    (resumeRun [1, 2, 3, 4] [3, 4, 4, 4] (mkResumeCombIter 3)).getD 1 none =
      some [some 1, some 2, some 4] ∧
    (resumeRun [1, 2, 3, 4] [3, 4, 4, 4] (mkResumeCombIter 3)).getD 2 none =
      some [some 1, some 3, some 4] ∧
    (resumeRun [1, 2, 3, 4] [3, 4, 4, 4] (mkResumeCombIter 3)).getD 3 none =
      some [some 2, some 3, some 4] := by decide

/-- Claim C5 (amended): a pull finding the source empty and the buffer
insufficient returns `None` and leaves the adapter state entirely unchanged;
and over the source `1,2,3,4` with `K = 3`, for any nondecreasing availability
schedule, each pull returns `None` while fewer than the needed number of items
are available, returns `[1,2,3]` once 3 are, then `[1,2,4]`, `[1,3,4]`,
`[2,3,4]` as the fourth arrives, and `None` on every later pull — regardless of
how many `None`-signalling pulls are interspersed. -/
theorem claim_C5 :
    (∀ (full : List Nat) (avail : Nat) (s : ResumeCombIter),
      avail ≤ s.pos → s.g.isDone s.items.length = true →
      resumeCombNext full avail s = (none, s)) ∧
    (∀ sch : List Nat, List.Chain' (· ≤ ·) sch → (∀ a ∈ sch, a ≤ 4) →
      resumeRun [1, 2, 3, 4] sch (mkResumeCombIter 3) =
        (c5expected sch 0).map (Option.map fun t => t.map some)) := by
  constructor
  · intro full avail s hstall hdone
    have hfid := fillResume_stall full avail s hstall
    have := resumeCombNext_done full avail s (by rw [hfid]; exact hdone)
    rw [hfid] at this
    exact this
  · intro sch hchain hb4
    have hch0 : List.Chain' (· ≤ ·) (0 :: sch) := by
      refine List.Chain'.cons' hchain ?_
      intro y _
      omega
    exact c5run sch 0 0 0 hch0 hb4 (by omega) (by omega) (Nat.zero_le _) (by omega)

/-- Witness for (amended) claim C5 over the schedule of the crate's
`resume_after_none` test. -/
theorem claim_C5_witness :
    resumeRun [1, 2, 3, 4] [0, 1, 2, 3, 3, 4, 4, 4, 4, 4] (mkResumeCombIter 3) =
      (c5expected [0, 1, 2, 3, 3, 4, 4, 4, 4, 4] 0).map (Option.map fun t => t.map some) :=
  claim_C5.2 [0, 1, 2, 3, 3, 4, 4, 4, 4, 4] (by simp [List.chain'_cons]) (by decide)

/-- Witness for claim C6 at the source `[7]` with one unit of fuel. -/
theorem claim_C6_witness :
    sliceCombRun [7] 1 (mkCombGen 0) = [[]] ∧
    slicePermRun [7] 1 (mkPermState 0) = [[]] ∧
    seqCombRun 1 (mkSeqCombIter [7] 0) = [[]] ∧
    seqPermRun 1 (mkSeqPermIter [7] 0) = [[]] :=
  claim_C6.1 Nat [7] 1 (by decide)

/-- Witness for claim C7 at the source `[5]` with `K = 2`. -/
theorem claim_C7_witness :
    sliceCombRun [5] 4 (mkCombGen 2) = [] ∧
    (mkCombGen 2).isDone [5].length = true :=
  ⟨(claim_C7 Nat [5] 2 (by decide)).1 4, (claim_C7 Nat [5] 2 (by decide)).2.2.2.2⟩
